import Mathlib

/-!
Verification development for the `files-to-prompt` command-line tool
(`src/files_to_prompt/cli.py`): a shallow embedding of its file-discovery
and filtering pipeline (gitignore collection with re-anchoring, the
filtered `os.walk` traversal, sorted emission) and of its three output
renderers, together with theorems settling the specification claims.

Conventions of the embedding:
* Filesystem trees are modelled by `FSEntry` (files carry `Option String`
  content, `none` meaning the bytes do not decode as UTF-8 text).
* Paths relative to a traversal root are segment lists (`List String`);
  full path strings use `/` as separator, as on the POSIX systems the
  tool's path handling targets.
* String manipulation is implemented over `List Char` (`String.data`) so
  that every definition evaluates inside the kernel.
-/

namespace FilesToPrompt

/-! ## Character-level utilities -/

/-- Whitespace characters recognised by Python's `str.strip()`. -/
def isPyWhitespace (c : Char) : Bool :=
  c = ' ' || c = '\t' || c = '\n' || c = '\x0d' || c = '\x0b' || c = '\x0c'

/-- Strip leading and trailing whitespace from a character list
(the model of Python's `line.strip()`). -/
def trimChars (l : List Char) : List Char :=
  ((l.dropWhile isPyWhitespace).reverse.dropWhile isPyWhitespace).reverse

/-- Split a character list on a separator character; the model of
`str.split(sep)` for a one-character separator (always returns at least
one, possibly empty, piece). -/
def splitOnChar (sep : Char) : List Char → List (List Char)
  | [] => [[]]
  | c :: rest =>
    if c = sep then
      [] :: splitOnChar sep rest
    else
      match splitOnChar sep rest with
      | [] => [[c]]
      | s :: ss => (c :: s) :: ss

/-- First character test on strings, used for Python's
`s.startswith(c)` with a one-character needle. -/
def headIs (c : Char) (s : String) : Bool :=
  s.data.head? = some c

/-- The model of Python's `s.endswith(suffix)` for one suffix:
a raw string-suffix test. -/
def strEndsWith (s suffix : String) : Bool :=
  suffix.data.isSuffixOf s.data

/-! ## Shell-style glob matching

`segMatch` models the glob matching shared by Python's `fnmatch.fnmatch`
(used for `--ignore` patterns, whole-name matching on Linux where
`normcase` is the identity) and by the per-segment matching of
`pathspec`'s gitignore patterns: `*` matches any run of characters, `?`
any single character, `[...]`/`[!...]` character classes with ranges, an
unmatched `[` is a literal.  It is written with explicit fuel so that it
evaluates in the kernel; every recursive step strictly decreases
`pattern.length + input.length`, so the fuel `pattern.length +
input.length + 1` used by the `segMatch` wrapper never runs out. -/

/-- One item of a glob character class: a single character or a range. -/
inductive ClassItem where
  | one (c : Char)
  | range (lo hi : Char)
deriving DecidableEq

/-- Parse the body of a character class (after `[` and the optional
negation marker and leading literal `]`), up to the closing `]`.
Returns `none` when the class is unterminated. -/
def classBody : List Char → Option (List ClassItem × List Char)
  | [] => none
  | ']' :: rest => some ([], rest)
  | a :: '-' :: b :: rest =>
    if b = ']' then
      -- a trailing `-` is a literal member, as in Python's fnmatch
      some ([ClassItem.one a, ClassItem.one '-'], rest)
    else
      (classBody rest).map (fun p => (ClassItem.range a b :: p.1, p.2))
  | a :: rest => (classBody rest).map (fun p => (ClassItem.one a :: p.1, p.2))

/-- Parse a full character class starting right after the opening `[`:
optional negation (`!` as in fnmatch, `^` also accepted by gitignore
syntax), then body where a first `]` is a literal member. -/
def classParse (l : List Char) : Option (Bool × List ClassItem × List Char) :=
  let p := match l with
    | '!' :: r => (true, r)
    | '^' :: r => (true, r)
    | _ => (false, l)
  match p.2 with
  | ']' :: rest => (classBody rest).map (fun q => (p.1, ClassItem.one ']' :: q.1, q.2))
  | other => (classBody other).map (fun q => (p.1, q.1, q.2))

/-- Does character `c` belong to the (non-negated) class items? -/
def classHas (items : List ClassItem) (c : Char) : Bool :=
  items.any fun it =>
    match it with
    | ClassItem.one d => c = d
    | ClassItem.range lo hi => lo ≤ c && c ≤ hi

/-- Fuel-indexed glob matcher over character lists. -/
def segMatchF : Nat → List Char → List Char → Bool
  | 0, _, _ => false
  | _ + 1, [], [] => true
  | _ + 1, [], _ :: _ => false
  | fuel + 1, '*' :: ps, cs =>
    segMatchF fuel ps cs ||
      (match cs with
       | [] => false
       | _ :: cs2 => segMatchF fuel ('*' :: ps) cs2)
  | fuel + 1, '?' :: ps, cs =>
    (match cs with
     | [] => false
     | _ :: cs2 => segMatchF fuel ps cs2)
  | fuel + 1, '[' :: ps, cs =>
    (match cs with
     | [] => false
     | c :: cs2 =>
       match classParse ps with
       | some (neg, items, rest) => (neg != classHas items c) && segMatchF fuel rest cs2
       | none => ('[' = c) && segMatchF fuel ps cs2)
  | fuel + 1, p :: ps, cs =>
    (match cs with
     | [] => false
     | c :: cs2 => p = c && segMatchF fuel ps cs2)

/-- Glob matching of a whole character list against a pattern. -/
def segMatch (ps cs : List Char) : Bool :=
  segMatchF (ps.length + cs.length + 1) ps cs

/-- The model of Python's `fnmatch.fnmatch(name, pat)` as used for the
`--ignore` patterns: shell-style, whole-name, not path-aware. -/
def fnmatchB (name pat : String) : Bool :=
  segMatch pat.data name.data

/-! ## Lexicographic string order and sorting

Python's `sorted` on strings orders them lexicographically by code
point.  `lexLe` is that order, written so that it evaluates in the
kernel; `sortStrings` models `sorted(...)` (any stable comparison sort —
on a list of strings the result is determined by the order alone). -/

/-- Lexicographic comparison of character lists (`≤` by code point). -/
def lexLeAux : List Char → List Char → Bool
  | [], _ => true
  | _ :: _, [] => false
  | x :: xs, y :: ys => if x = y then lexLeAux xs ys else decide (x < y)

/-- Lexicographic `≤` on strings, the order of Python's `sorted`. -/
def lexLe (a b : String) : Bool :=
  lexLeAux a.data b.data

/-- Insert into a `lexLe`-sorted list, keeping it sorted. -/
def insertSorted (a : String) : List String → List String
  | [] => [a]
  | b :: bs => if lexLe a b then a :: b :: bs else b :: insertSorted a bs

/-- The model of Python's `sorted(files_to_process)`. -/
def sortStrings (l : List String) : List String :=
  l.foldr insertSorted []

/-! ## Gitignore patterns

The tool delegates pattern compilation and matching to the external
`pathspec` library (`PathSpec.from_lines(GitWildMatchPattern, …)`).
That library is not part of this repository, so it is modelled here from
the specification's description of its contract: "standard gitignore
glob syntax (`*`, `**`, `?`, character classes,
trailing-slash-means-directory-only, leading-`!` means re-include,
leading-`/` anchors to the prefix it's already been given)", with
`match_files` keeping a file when the **last** pattern matching it is
not negated.  Normalisation follows git's rules: a pattern with no
slash (or only a trailing slash) matches at any depth (`**/` is
prepended); a leading slash anchors the pattern (the empty first
segment is dropped); a trailing slash means "everything below the named
directory" (the empty last segment becomes `**`); a pattern matching a
directory also matches everything below it. -/

/-- Split a character list on `/` (the segment structure of a
gitignore pattern). -/
def splitSlash (l : List Char) : List (List Char) :=
  splitOnChar '/' l

/-- A parsed gitignore pattern: negation flag (leading `!`) and
normalised segment list. -/
structure GitPattern where
  negated : Bool
  segs : List (List Char)
deriving DecidableEq

/-- The double-star segment. -/
def dstar : List Char := ['*', '*']

/-- Parse one pattern line into a `GitPattern` (`none` for the null
patterns: empty, comment, bare `/`). -/
def parseGitPattern (s : String) : Option GitPattern :=
  let l := s.data
  if l = [] then none
  else if l.head? = some '#' then none
  else if l = ['/'] then none
  else
    let neg := decide (l.head? = some '!')
    let l1 := if neg then l.tail else l
    let l2 := if l1.head? = some '\\' then l1.tail else l1   -- leading backslash escapes `!`/`#`
    let segs0 := splitSlash l2
    let segs1 :=
      match segs0 with
      | [] :: rest => rest   -- leading slash: anchored, drop empty segment
      | _ =>
        -- no slash (or only a trailing one): match at any depth
        if (segs0.length = 1 ∨ (segs0.length = 2 ∧ segs0.getLast? = some [])) ∧
            segs0.head? ≠ some dstar then
          dstar :: segs0
        else segs0
    let segs2 :=
      -- trailing slash: directory pattern, match all descendants
      if segs1.length > 1 ∧ segs1.getLast? = some [] then
        segs1.dropLast ++ [dstar]
      else segs1
    if segs2 = [] then none else some ⟨neg, segs2⟩

/-- Fuel-indexed matching of a path (list of segment strings, relative
to the traversal root, never empty for a real filesystem entry) against
the normalised segments of a pattern.  `[] , _ ↦ true` realises "a
pattern matching a directory matches everything below it"; a trailing
`**` requires at least one further segment (so `dir/` does not match
the bare path `dir`); a non-trailing `**` matches zero or more
segments.  Every step decreases `segs.length + path.length`, so the
wrapper's fuel never runs out. -/
def segsMatchF : Nat → List (List Char) → List String → Bool
  | 0, _, _ => false
  | _ + 1, [], _ => true
  | fuel + 1, seg :: rest, path =>
    if seg = dstar then
      match rest, path with
      | [], [] => false
      | [], _ :: _ => true
      | _ :: _, [] => segsMatchF fuel rest []
      | _ :: _, _ :: ptail =>
        segsMatchF fuel rest path || segsMatchF fuel (seg :: rest) ptail
    else
      match path with
      | [] => false
      | pseg :: ptail => segMatch seg pseg.data && segsMatchF fuel rest ptail

/-- Match a relative path against one parsed pattern. -/
def gitMatch (gp : GitPattern) (path : List String) : Bool :=
  segsMatchF (gp.segs.length + path.length + 1) gp.segs path

/-- Parse a list of collected pattern lines (the model of
`PathSpec.from_lines(GitWildMatchPattern, all_patterns)`). -/
def parseSpec (lines : List String) : List GitPattern :=
  lines.filterMap parseGitPattern

/-- Is `path` ignored by the compiled rule set?  The last matching
pattern decides; a file matched last by a negated (`!`) pattern is
re-included.  This is the model of membership in
`gitignore_spec.match_files(paths_to_check)`. -/
def matchVerdict (spec : List GitPattern) (path : List String) : Bool :=
  spec.foldl (fun acc gp => if gitMatch gp path then !gp.negated else acc) false

/-! ## Filesystem model and gitignore collection -/

/-- A filesystem entry: a file with (optionally UTF-8-decodable)
content, or a directory with its listing.  The order of `entries` is
the order in which the operating system lists the directory. -/
inductive FSEntry where
  | file (name : String) (content : Option String)
  | dir (name : String) (entries : List FSEntry)

/-- Name of an entry. -/
def FSEntry.name : FSEntry → String
  | .file n _ => n
  | .dir n _ => n

/-- Content of the `.gitignore` file of a directory listing:
`none` when no *file* named `.gitignore` exists, `some c` with the
decoding result otherwise (the model of
`(Path(root) / ".gitignore").is_file()` plus `open(...)`). -/
def gitignoreContent (es : List FSEntry) : Option (Option String) :=
  match es.find? (fun e => e.name = ".gitignore") with
  | some (.file _ c) => some c
  | _ => none

/-- Non-empty, non-comment, whitespace-trimmed lines of a `.gitignore`
file (the model of the `for line in f` loop). -/
def gitignoreLines (content : String) : List String :=
  ((splitOnChar '\n' content.data).map (fun l => String.mk (trimChars l))).filter
    (fun t => t ≠ "" && !(headIs '#' t))

/-- Join path segments with `/` (the model of `PurePath.as_posix()`
on a relative path built from the segments). -/
def joinPath : List String → String
  | [] => ""
  | [s] => s
  | s :: rest => s ++ "/" ++ joinPath rest

/-- Re-anchor one pattern line found in the `.gitignore` of the
directory at `d` (relative to the traversal root): stored verbatim when
`d` is the root itself (`relative_dir == "."`), else prefixed with
`d`'s posix path and `/`. -/
def anchorPattern (d : List String) (line : String) : String :=
  if d = [] then line else joinPath d ++ "/" ++ line

/-- Anchored pattern lines contributed by the `.gitignore` (if any) of
the directory at `d` with listing `es`; an undecodable `.gitignore` is
skipped (the source emits a non-fatal warning there). -/
def giPatterns (d : List String) (es : List FSEntry) : List String :=
  match gitignoreContent es with
  | some (some c) => (gitignoreLines c).map (anchorPattern d)
  | _ => []

mutual

/-- Patterns contributed by the subtree of one entry (directories
visited in `os.walk` top-down order: the directory's own `.gitignore`
first, then its subdirectories in listing order). -/
def collectEntry (d : List String) : FSEntry → List String
  | .file _ _ => []
  | .dir n sub => giPatterns (d ++ [n]) sub ++ collectList (d ++ [n]) sub

/-- Patterns contributed by the subtrees of a directory listing,
in listing order. -/
def collectList (d : List String) : List FSEntry → List String
  | [] => []
  | e :: rest => collectEntry d e ++ collectList d rest

end

/-- All re-anchored pattern lines collected from a traversal-root
listing, in `os.walk` order: the root's own `.gitignore` first, then
every descendant directory's (this walk does not prune hidden
directories).  The model of the `all_patterns` loop. -/
def collectRoot (es : List FSEntry) : List String :=
  giPatterns [] es ++ collectList [] es

/-! ## Filter configuration and the filtered tree walker -/

/-- The per-invocation filter configuration (the relevant arguments of
`process_path`). -/
structure Config where
  extensions : List String
  include_hidden : Bool
  ignore_files_only : Bool
  ignore_gitignore : Bool
  ignore_patterns : List String

/-- The staged per-directory file filter of the walk loop, applied to
the file names of the directory at `d` in listing order: hidden filter,
`--ignore` glob filter, gitignore filter, extension filter — in that
fixed order, exactly as in the source. -/
def filterFiles (cfg : Config) (spec : List GitPattern) (d : List String)
    (names : List String) : List String :=
  let f1 := if cfg.include_hidden then names else names.filter (fun n => !headIs '.' n)
  let f2 :=
    if cfg.ignore_patterns ≠ [] then
      f1.filter (fun n => !(cfg.ignore_patterns.any (fun p => fnmatchB n p)))
    else f1
  let f3 := f2.filter (fun n => !matchVerdict spec (d ++ [n]))
  let f4 :=
    if cfg.extensions ≠ [] then
      f3.filter (fun n => cfg.extensions.any (fun e => strEndsWith n e))
    else f3
  f4

/-- The staged per-directory *directory* filter of the walk loop
(hidden filter, `--ignore` glob filter unless `--ignore-files-only`,
gitignore filter; no extension filter), deciding which subdirectories
the walk descends into. -/
def filterDirs (cfg : Config) (spec : List GitPattern) (d : List String)
    (names : List String) : List String :=
  let d1 := if cfg.include_hidden then names else names.filter (fun n => !headIs '.' n)
  let d2 :=
    if cfg.ignore_patterns ≠ [] ∧ ¬cfg.ignore_files_only then
      d1.filter (fun n => !(cfg.ignore_patterns.any (fun p => fnmatchB n p)))
    else d1
  let d3 := d2.filter (fun n => !matchVerdict spec (d ++ [n]))
  d3

/-- File names of a directory listing, in listing order (the `files`
component of an `os.walk` step). -/
def fileNames (es : List FSEntry) : List String :=
  es.filterMap fun e => match e with | .file n _ => some n | _ => none

/-- Directory names of a directory listing, in listing order (the
`dirs` component of an `os.walk` step). -/
def dirNames (es : List FSEntry) : List String :=
  es.filterMap fun e => match e with | .dir n _ => some n | _ => none

mutual

/-- Walk one entry that survived its parent's directory filters:
a directory contributes its filtered files (as root-relative segment
paths) and then its recursively walked surviving subdirectories, in
listing order — the `os.walk(path, topdown=True)` loop with in-place
pruning of `dirs`. -/
def walkEntry (cfg : Config) (spec : List GitPattern) (d : List String) :
    FSEntry → List (List String)
  | .file _ _ => []
  | .dir n sub =>
    (filterFiles cfg spec (d ++ [n]) (fileNames sub)).map (fun m => d ++ [n] ++ [m]) ++
      walkList cfg spec (d ++ [n]) (filterDirs cfg spec (d ++ [n]) (dirNames sub)) sub

/-- Walk the entries of a directory listing whose surviving
subdirectory names are `keep`. -/
def walkList (cfg : Config) (spec : List GitPattern) (d : List String)
    (keep : List String) : List FSEntry → List (List String)
  | [] => []
  | .file _ _ :: rest => walkList cfg spec d keep rest
  | .dir n sub :: rest =>
    (if keep.contains n then walkEntry cfg spec d (.dir n sub) else []) ++
      walkList cfg spec d keep rest

end

/-- The full filtered walk from a traversal-root listing: the root
directory's filtered files first, then its surviving subtrees, as
root-relative segment paths in `os.walk` preorder. -/
def walkRoot (cfg : Config) (spec : List GitPattern) (es : List FSEntry) :
    List (List String) :=
  (filterFiles cfg spec [] (fileNames es)).map (fun m => [m]) ++
    walkList cfg spec [] (filterDirs cfg spec [] (dirNames es)) es

/-- The compiled gitignore rule set used for a directory target:
empty when `--ignore-gitignore` is set, else the parsed collected
patterns. -/
def dirSpec (cfg : Config) (es : List FSEntry) : List GitPattern :=
  if cfg.ignore_gitignore then [] else parseSpec (collectRoot es)

/-- Full path string of an emitted file: the target path argument
joined with the root-relative segments (`os.path.join` with the POSIX
separator `/`; the model assumes the target argument is written
without a trailing slash, as `os.path.join` would collapse one). -/
def fullPath (tp : String) (segs : List String) : String :=
  tp ++ "/" ++ joinPath segs

/-- The sorted list of full file paths emitted for a directory target
(`sorted(files_to_process)` in the source). -/
def filesToProcess (cfg : Config) (tp : String) (es : List FSEntry) : List String :=
  sortStrings ((walkRoot cfg (dirSpec cfg es) es).map (fullPath tp))

/-! ## Renderers and the read/emit adapter -/

/-- Join strings with a separator (`sep.join(...)`). -/
def joinWith (sep : String) : List String → String
  | [] => ""
  | [s] => s
  | s :: rest => s ++ sep ++ joinWith sep rest

/-- The model of Python's `content.splitlines()`, for `\n`-terminated
lines (the only terminator relevant to this tool's text handling):
no trailing empty piece, and the empty string has no lines. -/
def pySplitlines (s : String) : List String :=
  if s.data = [] then []
  else
    let parts := splitOnChar '\n' s.data
    (if parts.getLast? = some [] then parts.dropLast else parts).map String.mk

/-- Right-align the decimal form of `n` in a field of width `w`
(Python's `f"{n:w}"`). -/
def padLeftNum (w : Nat) (n : Nat) : String :=
  let r := Nat.repr n
  String.mk (List.replicate (w - r.length) ' ') ++ r

/-- The source's `add_line_numbers`: prefix every line with its
1-based index, right-aligned to the width of the largest line number,
followed by two spaces. -/
def add_line_numbers (content : String) : String :=
  let lines := pySplitlines content
  let padding := (Nat.repr lines.length).length
  joinWith "\n" (lines.enum.map (fun pr => padLeftNum padding (pr.1 + 1) ++ "  " ++ pr.2))

/-- The model of `Path(path).as_posix()` on POSIX: splits on `/`,
drops empty and `.` segments, keeps a leading `/`; the empty relative
path renders as `.`. -/
def normalizePath (p : String) : String :=
  let segs := ((splitOnChar '/' p.data).map String.mk).filter (fun s => s ≠ "" && s ≠ ".")
  if headIs '/' p then "/" ++ joinPath segs
  else if segs = [] then "." else joinPath segs

/-- One line written to the output sink (`writer(...)`) or one warning
written to the error stream (`click.echo(..., err=True)`). -/
inductive Output where
  | line (s : String)
  | warn (s : String)
deriving DecidableEq

/-- Output format selector: the `--cxml` / `--markdown` flags
(`--cxml` wins when both are set, as in `print_path`'s dispatch). -/
inductive OutFormat where
  | plain
  | xml
  | markdown
deriving DecidableEq

/-- The source's `print_default`. -/
def print_default (ln : Bool) (path content : String) : List Output :=
  [.line path, .line "---", .line (if ln then add_line_numbers content else content),
   .line "", .line "---"]

/-- The source's `print_as_xml`: the only reader and the only writer of
the render sequence counter `global_index` (returned incremented). -/
def print_as_xml (ln : Bool) (idx : Nat) (path content : String) : List Output × Nat :=
  ([.line ("<document index=\"" ++ Nat.repr idx ++ "\">"),
    .line ("<source>" ++ path ++ "</source>"),
    .line "<document_content>",
    .line (if ln then add_line_numbers content else content),
    .line "</document_content>",
    .line "</document>"], idx + 1)

/-- The backtick character. -/
def tick : Char := Char.ofNat 96

/-- Fuel-indexed model of the fence-extension loop
`while backticks in content: backticks += "`"` (substring test).  The
`fenceFor` wrapper supplies fuel `content.length + 1`, which is enough:
once the marker is longer than the content it cannot be a substring. -/
def extendFenceF : Nat → List Char → List Char → List Char
  | 0, _, m => m
  | fuel + 1, cdata, m =>
    if decide (m <:+: cdata) then extendFenceF fuel cdata (m ++ [tick]) else m

/-- The fence marker chosen by `print_as_markdown` for a given
content: three backticks, extended while still a substring. -/
def fenceFor (content : String) : String :=
  String.mk (extendFenceF (content.data.length + 1) content.data (List.replicate 3 tick))

/-- The `EXT_TO_LANG` table. -/
def ext_to_lang (e : String) : String :=
  match e with
  | "py" => "python"
  | "c" => "c"
  | "cpp" => "cpp"
  | "java" => "java"
  | "js" => "javascript"
  | "ts" => "typescript"
  | "html" => "html"
  | "css" => "css"
  | "xml" => "xml"
  | "json" => "json"
  | "yaml" => "yaml"
  | "yml" => "yaml"
  | "sh" => "bash"
  | "rb" => "ruby"
  | _ => ""

/-- `path.split(".")[-1]`. -/
def lastDotPiece (p : String) : String :=
  ((splitOnChar '.' p.data).getLast?.map String.mk).getD ""

/-- The source's `print_as_markdown`: language tag from the extension,
fence computed on the *original* content (before optional line
numbering), path line, fenced block. -/
def print_as_markdown (ln : Bool) (path content : String) : List Output :=
  let lang := ext_to_lang (lastDotPiece path)
  let fence := fenceFor content
  [.line path, .line (fence ++ lang),
   .line (if ln then add_line_numbers content else content),
   .line fence]

/-- The source's `print_path`: normalize the path, then dispatch on the
format flags; only the XML branch touches the counter. -/
def print_path (fmt : OutFormat) (ln : Bool) (idx : Nat) (path content : String) :
    List Output × Nat :=
  let np := normalizePath path
  match fmt with
  | .xml => print_as_xml ln idx np content
  | .markdown => (print_as_markdown ln np content, idx)
  | .plain => (print_default ln np content, idx)

/-- Emit one file: on decode failure (`content = none`) a single
warning and no counter change; on success the rendered block. -/
def emitOne (fmt : OutFormat) (ln : Bool) (idx : Nat) (path : String)
    (content : Option String) : List Output × Nat :=
  match content with
  | none => ([.warn ("Warning: Skipping file " ++ path ++ " due to UnicodeDecodeError")], idx)
  | some s => print_path fmt ln idx path s

/-- The emit loop over the sorted file list: every file is processed;
a decode failure affects only its own file. -/
def emitAll (fmt : OutFormat) (ln : Bool) : Nat → List (String × Option String) →
    List Output × Nat
  | idx, [] => ([], idx)
  | idx, (p, c) :: rest =>
    let r := emitOne fmt ln idx p c
    let r2 := emitAll fmt ln r.2 rest
    (r.1 ++ r2.1, r2.2)

/-- Look up a file's content by root-relative segments (the model of
`open(file_path)` during the emit loop): `none` when no such file
exists, `some c` with its decoding result otherwise. -/
def contentAt (es : List FSEntry) : List String → Option (Option String)
  | [] => none
  | [n] =>
    match es.find? (fun e => e.name = n) with
    | some (.file _ c) => some c
    | _ => none
  | n :: rest =>
    match es.find? (fun e => e.name = n) with
    | some (.dir _ sub) => contentAt sub rest
    | _ => none

/-- Insert a segment path into a list sorted by full path string. -/
def insertByFull (tp : String) (a : List String) : List (List String) → List (List String)
  | [] => [a]
  | b :: bs =>
    if lexLe (fullPath tp a) (fullPath tp b) then a :: b :: bs else b :: insertByFull tp a bs

/-- The walked segment paths sorted by their full path strings
(`sorted(files_to_process)` keeping the segment structure so contents
can be looked up). -/
def sortSegsByFull (tp : String) (l : List (List String)) : List (List String) :=
  l.foldr (insertByFull tp) []

/-- A traversal target as `process_path` receives it: a plain file or a
directory tree. -/
inductive PathTarget where
  | file (content : Option String)
  | dir (entries : List FSEntry)

/-- The source's `process_path`.  A file target short-circuits: no
filtering of any kind, just the decode-and-emit step.  A directory
target: collect and compile the gitignore patterns, walk with the four
filter stages, sort, then read and emit each surviving file.  The
`(contentAt es q).join` realises `open(file_path)`: every walked path
does name a file of the tree, so the missing-file case of `contentAt`
never arises for the loop's inputs. -/
def process_path (cfg : Config) (fmt : OutFormat) (ln : Bool) (idx : Nat)
    (tp : String) : PathTarget → List Output × Nat
  | .file content => emitOne fmt ln idx tp content
  | .dir es =>
    let spec := dirSpec cfg es
    let sorted := sortSegsByFull tp (walkRoot cfg spec es)
    emitAll fmt ln idx (sorted.map (fun q => (fullPath tp q, (contentAt es q).join)))

/-- One argument of the top-level invocation: its path string, and the
target it resolves to (`none` when the path does not exist). -/
abbrev CliArg := String × Option PathTarget

/-- The argument loop of `cli`: each existing path is processed in
order; the first nonexistent path raises the usage error, which keeps
all output already written and processes nothing further. -/
def cliLoop (cfg : Config) (fmt : OutFormat) (ln : Bool) :
    Nat → List CliArg → List Output × Nat × Option String
  | idx, [] => ([], idx, none)
  | idx, (p, none) :: _ => ([], idx, some ("Path does not exist: " ++ p))
  | idx, (p, some t) :: rest =>
    let r := process_path cfg fmt ln idx p t
    let r2 := cliLoop cfg fmt ln r.2 rest
    (r.1 ++ r2.1, r2.2)

/-- The source's `cli` body: reset `global_index` to 1, write the
`<documents>` opener in XML mode, run the argument loop, and write the
closer only when no usage error aborted the loop.  Returns the whole
output stream, the final counter, and the error if one was raised. -/
def cliRun (cfg : Config) (fmt : OutFormat) (ln : Bool) (args : List CliArg) :
    List Output × Nat × Option String :=
  let hdr := if fmt = .xml then [Output.line "<documents>"] else []
  let r := cliLoop cfg fmt ln 1 args
  let ftr := if fmt = .xml ∧ r.2.2 = none then [Output.line "</documents>"] else []
  (hdr ++ r.1 ++ ftr, r.2.1, r.2.2)

/-! ## Specification-side predicates

Declarative descriptions of the pipeline used to *state* the claims:
a per-file/per-directory "kept" predicate (the four/three filter stages
as one conjunction, in the spec's fixed order), a recursive survivor
predicate over a tree, a well-formedness predicate for realisable
filesystem listings (distinct names at every level), and the relation
"same tree up to the order in which directories list their entries". -/

/-- A file name passes the four filter stages (hidden, `--ignore`
glob, gitignore, extension) for the directory at `d`. -/
def fileKept (cfg : Config) (spec : List GitPattern) (d : List String) (n : String) : Bool :=
  (cfg.include_hidden || !headIs '.' n) &&
  (cfg.ignore_patterns.isEmpty || !(cfg.ignore_patterns.any (fun p => fnmatchB n p))) &&
  !matchVerdict spec (d ++ [n]) &&
  (cfg.extensions.isEmpty || cfg.extensions.any (fun e => strEndsWith n e))

/-- A directory name passes the three directory filter stages (hidden,
`--ignore` glob unless `--ignore-files-only`, gitignore). -/
def dirKept (cfg : Config) (spec : List GitPattern) (d : List String) (n : String) : Bool :=
  (cfg.include_hidden || !headIs '.' n) &&
  (cfg.ignore_patterns.isEmpty || cfg.ignore_files_only ||
    !(cfg.ignore_patterns.any (fun p => fnmatchB n p))) &&
  !matchVerdict spec (d ++ [n])

/-- Declarative survivor predicate: the root-relative path survives the
walk of the listing `es` of the directory at `d` — every ancestor
directory passes the directory filters and the file itself passes the
file filters. -/
def survivesB (cfg : Config) (spec : List GitPattern) (d : List String)
    (es : List FSEntry) : List String → Bool
  | [] => false
  | [n] =>
    (es.any fun e => match e with | .file m _ => m == n | _ => false) &&
      fileKept cfg spec d n
  | n :: m :: rest =>
    es.any fun e =>
      match e with
      | .dir n' sub =>
        n' == n && dirKept cfg spec d n && survivesB cfg spec (d ++ [n]) sub (m :: rest)
      | _ => false

/-- Is `line` one of the trimmed, non-empty, non-comment lines of the
(decodable) `.gitignore` of the directory at the given root-relative
path? -/
def hasGitignoreLineAt (es : List FSEntry) : List String → String → Bool
  | [], line =>
    (match gitignoreContent es with
     | some (some c) => (gitignoreLines c).contains line
     | _ => false)
  | n :: rest, line =>
    es.any fun e =>
      match e with
      | .dir n' sub => n' == n && hasGitignoreLineAt sub rest line
      | _ => false

/-- Names of the entries of a listing, in listing order. -/
def namesOf (es : List FSEntry) : List String :=
  es.map FSEntry.name

/-- No duplicates in a list of strings. -/
def nodupStrings : List String → Bool
  | [] => true
  | n :: rest => !rest.contains n && nodupStrings rest

mutual

/-- Well-formed entry: every directory listing in it has pairwise
distinct names (as on a real filesystem). -/
def wfEntry : FSEntry → Bool
  | .file _ _ => true
  | .dir _ es => nodupStrings (namesOf es) && wfList es

/-- All entries of a listing are well-formed. -/
def wfList : List FSEntry → Bool
  | [] => true
  | e :: rest => wfEntry e && wfList rest

end

/-- Well-formed traversal-root listing. -/
def wfRoot (es : List FSEntry) : Bool :=
  nodupStrings (namesOf es) && wfList es

/-- No top-level directory name begins with `!`.  (A top-level name
beginning with `!` makes every pattern re-anchored under it parse as a
negation, whose position relative to sibling-subtree patterns depends
on the listing order.) -/
def noBangTop (es : List FSEntry) : Bool :=
  (dirNames es).all (fun n => !headIs '!' n)

mutual

/-- Two entries are equal up to the order in which directories list
their entries. -/
def PermTree : FSEntry → FSEntry → Prop
  | .file n c, .file m b => n = m ∧ c = b
  | .dir n es, .dir m fs => n = m ∧ ∃ ms, PermForall es ms ∧ ms.Perm fs
  | _, _ => False

/-- Pointwise `PermTree` on listings of equal length. -/
def PermForall : List FSEntry → List FSEntry → Prop
  | [], [] => True
  | e :: l, f :: l2 => PermTree e f ∧ PermForall l l2
  | _, _ => False

end

/-- Two listings are equal up to the order in which each directory
(including this one) lists its entries: pointwise reordering of the
subtrees followed by a permutation of this listing. -/
def PermEntries (es fs : List FSEntry) : Prop :=
  ∃ ms, PermForall es ms ∧ ms.Perm fs

/-! ## Properties of the lexicographic order and of sorting -/

theorem lexLeAux_refl (xs : List Char) : lexLeAux xs xs = true := by
  induction xs with
  | nil => rfl
  | cons x xs ih => simp [lexLeAux, ih]

theorem lexLeAux_total (xs ys : List Char) :
    lexLeAux xs ys = true ∨ lexLeAux ys xs = true := by
  induction xs generalizing ys with
  | nil => exact Or.inl rfl
  | cons x xs ih =>
    cases ys with
    | nil => exact Or.inr rfl
    | cons y ys =>
      by_cases h : x = y
      · subst h
        simpa [lexLeAux] using ih ys
      · rcases lt_trichotomy x y with h1 | h1 | h1
        · exact Or.inl (by simp [lexLeAux, h, h1])
        · exact absurd h1 h
        · exact Or.inr (by simp [lexLeAux, Ne.symm h, h1])

theorem lexLeAux_trans {xs ys zs : List Char}
    (h1 : lexLeAux xs ys = true) (h2 : lexLeAux ys zs = true) :
    lexLeAux xs zs = true := by
  induction xs generalizing ys zs with
  | nil => rfl
  | cons x xs ih =>
    cases ys with
    | nil => simp [lexLeAux] at h1
    | cons y ys =>
      cases zs with
      | nil => simp [lexLeAux] at h2
      | cons z zs =>
        by_cases hxy : x = y
        · subst hxy
          by_cases hyz : x = z
          · subst hyz
            simp only [lexLeAux, if_pos rfl] at h1 h2 ⊢
            exact ih h1 h2
          · simp only [lexLeAux, if_pos rfl] at h1
            simp only [lexLeAux, if_neg hyz] at h2 ⊢
            exact h2
        · simp only [lexLeAux, if_neg hxy, decide_eq_true_eq] at h1
          by_cases hyz : y = z
          · subst hyz
            simp [lexLeAux, hxy, h1]
          · simp only [lexLeAux, if_neg hyz, decide_eq_true_eq] at h2
            have hxz : x < z := lt_trans h1 h2
            simp [lexLeAux, ne_of_lt hxz, hxz]

theorem lexLeAux_antisymm {xs ys : List Char}
    (h1 : lexLeAux xs ys = true) (h2 : lexLeAux ys xs = true) : xs = ys := by
  induction xs generalizing ys with
  | nil =>
    cases ys with
    | nil => rfl
    | cons y ys => simp [lexLeAux] at h2
  | cons x xs ih =>
    cases ys with
    | nil => simp [lexLeAux] at h1
    | cons y ys =>
      by_cases hxy : x = y
      · subst hxy
        simp only [lexLeAux, if_pos rfl] at h1 h2
        exact congrArg (x :: ·) (ih h1 h2)
      · simp only [lexLeAux, if_neg hxy, decide_eq_true_eq] at h1
        simp only [lexLeAux, if_neg (Ne.symm hxy), decide_eq_true_eq] at h2
        exact absurd (lt_trans h1 h2) (lt_irrefl x)

theorem lexLe_total (a b : String) : lexLe a b = true ∨ lexLe b a = true :=
  lexLeAux_total a.data b.data

theorem lexLe_trans {a b c : String} (h1 : lexLe a b = true) (h2 : lexLe b c = true) :
    lexLe a c = true :=
  lexLeAux_trans h1 h2

theorem lexLe_antisymm {a b : String} (h1 : lexLe a b = true) (h2 : lexLe b a = true) :
    a = b := by
  cases a with
  | mk da =>
    cases b with
    | mk db => exact congrArg String.mk (lexLeAux_antisymm h1 h2)

theorem insertSorted_perm (a : String) (l : List String) :
    (insertSorted a l).Perm (a :: l) := by
  induction l with
  | nil => exact List.Perm.refl _
  | cons b bs ih =>
    by_cases h : lexLe a b = true
    · simp [insertSorted, h]
    · simp only [insertSorted, if_neg h]
      exact ((ih.cons b).trans (List.Perm.swap a b bs)).symm.symm

theorem sortStrings_perm (l : List String) : (sortStrings l).Perm l := by
  induction l with
  | nil => exact List.Perm.refl _
  | cons a l ih =>
    exact (insertSorted_perm a (sortStrings l)).trans (ih.cons a)

theorem insertSorted_sorted (a : String) (l : List String)
    (h : l.Pairwise (fun x y => lexLe x y = true)) :
    (insertSorted a l).Pairwise (fun x y => lexLe x y = true) := by
  induction l with
  | nil => simp [insertSorted]
  | cons b bs ih =>
    rcases List.pairwise_cons.mp h with ⟨hb, hbs⟩
    by_cases hab : lexLe a b = true
    · simp only [insertSorted, if_pos hab]
      refine List.pairwise_cons.mpr ⟨?_, h⟩
      intro y hy
      rcases List.mem_cons.mp hy with rfl | hy
      · exact hab
      · exact lexLe_trans hab (hb y hy)
    · simp only [insertSorted, if_neg hab]
      refine List.pairwise_cons.mpr ⟨?_, ih hbs⟩
      intro y hy
      have := (insertSorted_perm a bs).mem_iff.mp hy
      rcases List.mem_cons.mp this with rfl | hy2
      · rcases lexLe_total y b with h1 | h1
        · exact absurd h1 hab
        · exact h1
      · exact hb y hy2

theorem sortStrings_sorted (l : List String) :
    (sortStrings l).Pairwise (fun x y => lexLe x y = true) := by
  induction l with
  | nil => exact List.Pairwise.nil
  | cons a l ih => exact insertSorted_sorted a (sortStrings l) ih

instance : IsAntisymm String (fun x y => lexLe x y = true) :=
  ⟨fun _ _ h1 h2 => lexLe_antisymm h1 h2⟩

theorem sortStrings_eq_of_perm {l1 l2 : List String} (h : l1.Perm l2) :
    sortStrings l1 = sortStrings l2 := by
  have hp : (sortStrings l1).Perm (sortStrings l2) :=
    ((sortStrings_perm l1).trans h).trans (sortStrings_perm l2).symm
  refine List.eq_of_perm_of_sorted (r := fun x y => lexLe x y = true) hp ?_ ?_
  · exact sortStrings_sorted l1
  · exact sortStrings_sorted l2

theorem lexLeAux_iff_not_lex {xs ys : List Char} :
    lexLeAux xs ys = true ↔ ¬ List.Lex (· < ·) ys xs := by
  induction xs generalizing ys with
  | nil =>
    cases ys with
    | nil => simp [lexLeAux]
    | cons y ys =>
      simp only [lexLeAux, true_iff]
      intro h
      cases h
  | cons x xs ih =>
    cases ys with
    | nil =>
      simp only [lexLeAux]
      exact iff_of_false (by simp) (not_not_intro List.Lex.nil)
    | cons y ys =>
      by_cases hxy : x = y
      · subst hxy
        simp only [lexLeAux, eq_self_iff_true, if_true]
        rw [ih]
        constructor
        · intro h hlex
          cases hlex with
          | cons h2 => exact h h2
          | rel h2 => exact lt_irrefl x h2
        · intro h h2
          exact h (List.Lex.cons h2)
      · simp only [lexLeAux, if_neg hxy, decide_eq_true_eq]
        constructor
        · intro h hlex
          cases hlex with
          | cons h2 => exact hxy rfl
          | rel h2 => exact absurd h (not_lt_of_gt h2)
        · intro h
          rcases lt_trichotomy x y with h1 | h1 | h1
          · exact h1
          · exact absurd h1 hxy
          · exact absurd (List.Lex.rel h1) h

/-- `lexLe` is the standard lexicographic order on strings. -/
theorem lexLe_iff_le {a b : String} : lexLe a b = true ↔ a ≤ b := by
  rw [String.le_iff_toList_le]
  have : a.toList = a.data := rfl
  rw [this]
  have : b.toList = b.data := rfl
  rw [this]
  rw [← not_lt]
  exact lexLeAux_iff_not_lex

/-! ## Membership characterisation of the filter stages -/

theorem mem_filterFiles {cfg : Config} {σ : List GitPattern} {d : List String}
    {names : List String} {n : String} :
    n ∈ filterFiles cfg σ d names ↔ n ∈ names ∧ fileKept cfg σ d n = true := by
  simp only [filterFiles, fileKept]
  by_cases h1 : cfg.include_hidden
  · by_cases h2 : cfg.ignore_patterns = []
    · by_cases h4 : cfg.extensions = [] <;>
        simp [h1, h2, h4, List.mem_filter, List.isEmpty_iff, and_assoc,
          and_left_comm, and_comm]
    · by_cases h4 : cfg.extensions = [] <;>
        simp [h1, h2, h4, List.mem_filter, List.isEmpty_iff, and_assoc,
          and_left_comm, and_comm]
  · by_cases h2 : cfg.ignore_patterns = []
    · by_cases h4 : cfg.extensions = [] <;>
        simp [h1, h2, h4, List.mem_filter, List.isEmpty_iff, and_assoc,
          and_left_comm, and_comm]
    · by_cases h4 : cfg.extensions = [] <;>
        simp [h1, h2, h4, List.mem_filter, List.isEmpty_iff, and_assoc,
          and_left_comm, and_comm]

theorem mem_filterDirs {cfg : Config} {σ : List GitPattern} {d : List String}
    {names : List String} {n : String} :
    n ∈ filterDirs cfg σ d names ↔ n ∈ names ∧ dirKept cfg σ d n = true := by
  simp only [filterDirs, dirKept]
  by_cases h1 : cfg.include_hidden
  · by_cases h2 : cfg.ignore_patterns = []
    · by_cases h3 : cfg.ignore_files_only <;>
        simp [h1, h2, h3, List.mem_filter, List.isEmpty_iff, and_assoc,
          and_left_comm, and_comm]
    · by_cases h3 : cfg.ignore_files_only <;>
        simp [h1, h2, h3, List.mem_filter, List.isEmpty_iff, and_assoc,
          and_left_comm, and_comm]
  · by_cases h2 : cfg.ignore_patterns = []
    · by_cases h3 : cfg.ignore_files_only <;>
        simp [h1, h2, h3, List.mem_filter, List.isEmpty_iff, and_assoc,
          and_left_comm, and_comm]
    · by_cases h3 : cfg.ignore_files_only <;>
        simp [h1, h2, h3, List.mem_filter, List.isEmpty_iff, and_assoc,
          and_left_comm, and_comm]

theorem contains_iff_mem {l : List String} {a : String} :
    l.contains a = true ↔ a ∈ l := by
  simp [List.contains, List.elem_iff]

theorem mem_fileNames {es : List FSEntry} {m : String} :
    m ∈ fileNames es ↔ ∃ c, FSEntry.file m c ∈ es := by
  simp only [fileNames, List.mem_filterMap]
  constructor
  · rintro ⟨e, he, hf⟩
    cases e with
    | file n c =>
      simp only [Option.some.injEq] at hf
      exact ⟨c, hf ▸ he⟩
    | dir n s => simp at hf
  · rintro ⟨c, hc⟩
    exact ⟨.file m c, hc, rfl⟩

theorem mem_dirNames {es : List FSEntry} {n : String} :
    n ∈ dirNames es ↔ ∃ sub, FSEntry.dir n sub ∈ es := by
  simp only [dirNames, List.mem_filterMap]
  constructor
  · rintro ⟨e, he, hf⟩
    cases e with
    | file m c => simp at hf
    | dir m s =>
      simp only [Option.some.injEq] at hf
      exact ⟨s, hf ▸ he⟩
  · rintro ⟨sub, hc⟩
    exact ⟨.dir n sub, hc, rfl⟩

theorem survivesB_nil {cfg : Config} {σ : List GitPattern} {d : List String}
    {es : List FSEntry} : survivesB cfg σ d es [] = false := rfl

theorem survivesB_single {cfg : Config} {σ : List GitPattern} {d : List String}
    {es : List FSEntry} {n : String} :
    survivesB cfg σ d es [n] = true ↔
      (∃ c, FSEntry.file n c ∈ es) ∧ fileKept cfg σ d n = true := by
  simp only [survivesB, Bool.and_eq_true, List.any_eq_true]
  constructor
  · rintro ⟨⟨e, he, hf⟩, hk⟩
    cases e with
    | file m c =>
      simp only [beq_iff_eq] at hf
      exact ⟨⟨c, hf ▸ he⟩, hk⟩
    | dir m s => simp at hf
  · rintro ⟨⟨c, hc⟩, hk⟩
    exact ⟨⟨.file n c, hc, by simp⟩, hk⟩

theorem survivesB_cons₂ {cfg : Config} {σ : List GitPattern} {d : List String}
    {es : List FSEntry} {n m : String} {rest : List String} :
    survivesB cfg σ d es (n :: m :: rest) = true ↔
      ∃ sub, FSEntry.dir n sub ∈ es ∧ dirKept cfg σ d n = true ∧
        survivesB cfg σ (d ++ [n]) sub (m :: rest) = true := by
  simp only [survivesB, List.any_eq_true]
  constructor
  · rintro ⟨e, he, hf⟩
    cases e with
    | file _ _ => simp at hf
    | dir n' sub =>
      simp only [Bool.and_eq_true, beq_iff_eq] at hf
      obtain ⟨⟨rfl, h1⟩, h2⟩ := hf
      exact ⟨sub, he, h1, h2⟩
  · rintro ⟨sub, hmem, h1, h2⟩
    exact ⟨.dir n sub, hmem, by simp [h1, h2]⟩

mutual

theorem walkEntry_mem (cfg : Config) (σ : List GitPattern) (e : FSEntry) :
    ∀ (d p : List String),
      p ∈ walkEntry cfg σ d e ↔
        ∃ n sub, e = FSEntry.dir n sub ∧
          ∃ q, p = d ++ n :: q ∧ survivesB cfg σ (d ++ [n]) sub q = true := by
  cases e with
  | file n c =>
    intro d p
    simp [walkEntry]
  | dir n sub =>
    intro d p
    simp only [walkEntry, List.mem_append, List.mem_map]
    rw [walkList_mem cfg σ sub (d ++ [n]) (filterDirs cfg σ (d ++ [n]) (dirNames sub)) p]
    constructor
    · rintro (⟨m, hm, rfl⟩ | ⟨n2, sub2, hmem, hcont, q2, rfl, hs⟩)
      · rcases mem_filterFiles.mp hm with ⟨hmf, hk⟩
        refine ⟨n, sub, rfl, [m], by simp, ?_⟩
        exact survivesB_single.mpr ⟨mem_fileNames.mp hmf, hk⟩
      · rcases mem_filterDirs.mp (contains_iff_mem.mp hcont) with ⟨_, hdk⟩
        cases q2 with
        | nil => exact absurd hs (by simp [survivesB_nil])
        | cons m2 rest2 =>
          refine ⟨n, sub, rfl, n2 :: m2 :: rest2, by simp, ?_⟩
          exact survivesB_cons₂.mpr ⟨sub2, hmem, hdk, hs⟩
    · rintro ⟨n', sub', heq, q, rfl, hs⟩
      obtain ⟨rfl, rfl⟩ : n' = n ∧ sub' = sub := by
        cases heq; exact ⟨rfl, rfl⟩
      cases q with
      | nil => exact absurd hs (by simp [survivesB_nil])
      | cons m qtail =>
        cases qtail with
        | nil =>
          rcases survivesB_single.mp hs with ⟨⟨c, hc⟩, hk⟩
          refine Or.inl ⟨m, ?_, by simp⟩
          exact mem_filterFiles.mpr ⟨mem_fileNames.mpr ⟨c, hc⟩, hk⟩
        | cons m2 rest2 =>
          rcases survivesB_cons₂.mp hs with ⟨sub2, hmem, hdk, hs2⟩
          refine Or.inr ⟨m, sub2, hmem, ?_, m2 :: rest2, by simp, hs2⟩
          exact contains_iff_mem.mpr
            (mem_filterDirs.mpr ⟨mem_dirNames.mpr ⟨sub2, hmem⟩, hdk⟩)

theorem walkList_mem (cfg : Config) (σ : List GitPattern) (es : List FSEntry) :
    ∀ (d keep : List String) (p : List String),
      p ∈ walkList cfg σ d keep es ↔
        ∃ n sub, FSEntry.dir n sub ∈ es ∧ keep.contains n = true ∧
          ∃ q, p = d ++ n :: q ∧ survivesB cfg σ (d ++ [n]) sub q = true := by
  cases es with
  | nil =>
    intro d keep p
    simp [walkList]
  | cons e rest =>
    intro d keep p
    cases e with
    | file nf cf =>
      simp only [walkList]
      rw [walkList_mem cfg σ rest d keep p]
      constructor
      · rintro ⟨n, sub, hmem, h⟩
        exact ⟨n, sub, List.mem_cons_of_mem _ hmem, h⟩
      · rintro ⟨n, sub, hmem, h⟩
        rcases List.mem_cons.mp hmem with heq | hmem2
        · cases heq
        · exact ⟨n, sub, hmem2, h⟩
    | dir nd subd =>
      simp only [walkList, List.mem_append]
      rw [walkList_mem cfg σ rest d keep p]
      by_cases hc : keep.contains nd = true
      · rw [if_pos hc]
        rw [show (p ∈ walkEntry cfg σ d (.dir nd subd) ↔
              ∃ n sub, FSEntry.dir nd subd = FSEntry.dir n sub ∧
                ∃ q, p = d ++ n :: q ∧ survivesB cfg σ (d ++ [n]) sub q = true) from
          walkEntry_mem cfg σ (.dir nd subd) d p]
        constructor
        · rintro (⟨n, sub, heq, h⟩ | ⟨n, sub, hmem, h⟩)
          · obtain ⟨rfl, rfl⟩ : n = nd ∧ sub = subd := by
              cases heq; exact ⟨rfl, rfl⟩
            exact ⟨n, sub, List.mem_cons_self _ _, hc, h⟩
          · exact ⟨n, sub, List.mem_cons_of_mem _ hmem, h⟩
        · rintro ⟨n, sub, hmem, hcont, h⟩
          rcases List.mem_cons.mp hmem with heq | hmem2
          · obtain ⟨rfl, rfl⟩ : nd = n ∧ subd = sub := by
              cases heq; exact ⟨rfl, rfl⟩
            exact Or.inl ⟨nd, subd, rfl, h⟩
          · exact Or.inr ⟨n, sub, hmem2, hcont, h⟩
      · rw [if_neg hc]
        simp only [List.not_mem_nil, false_or]
        constructor
        · rintro ⟨n, sub, hmem, h⟩
          exact ⟨n, sub, List.mem_cons_of_mem _ hmem, h⟩
        · rintro ⟨n, sub, hmem, hcont, h⟩
          rcases List.mem_cons.mp hmem with heq | hmem2
          · obtain ⟨rfl, rfl⟩ : nd = n ∧ subd = sub := by
              cases heq; exact ⟨rfl, rfl⟩
            exact absurd hcont hc
          · exact ⟨n, sub, hmem2, hcont, h⟩

end

/-- Membership characterisation of the whole walk: a root-relative path
is produced by the filtered traversal exactly when it survives the
declarative filter pipeline. -/
theorem mem_walkRoot {cfg : Config} {σ : List GitPattern} {es : List FSEntry}
    {p : List String} :
    p ∈ walkRoot cfg σ es ↔ survivesB cfg σ [] es p = true := by
  simp only [walkRoot, List.mem_append, List.mem_map]
  rw [walkList_mem cfg σ es [] (filterDirs cfg σ [] (dirNames es)) p]
  cases p with
  | nil =>
    simp only [survivesB_nil]
    constructor
    · rintro (⟨m, _, h⟩ | ⟨n, sub, _, _, q, h, _⟩) <;> simp at h
    · intro h
      cases h
  | cons n ptail =>
    cases ptail with
    | nil =>
      rw [survivesB_single]
      constructor
      · rintro (⟨m, hm, heq⟩ | ⟨n2, sub, _, _, q, heq, hs⟩)
        · obtain rfl : m = n := by
            simpa using heq
          rcases mem_filterFiles.mp hm with ⟨hmf, hk⟩
          exact ⟨mem_fileNames.mp hmf, hk⟩
        · simp only [List.nil_append, List.cons.injEq] at heq
          obtain ⟨rfl, rfl⟩ := heq
          exact absurd hs (by simp [survivesB_nil])
      · rintro ⟨⟨c, hc⟩, hk⟩
        exact Or.inl ⟨n, mem_filterFiles.mpr ⟨mem_fileNames.mpr ⟨c, hc⟩, hk⟩, rfl⟩
    | cons m rest =>
      rw [survivesB_cons₂]
      constructor
      · rintro (⟨m2, _, heq⟩ | ⟨n2, sub, hmem, hcont, q, heq, hs⟩)
        · simp at heq
        · simp only [List.nil_append, List.cons.injEq] at heq
          obtain ⟨rfl, rfl⟩ := heq
          rcases mem_filterDirs.mp (contains_iff_mem.mp hcont) with ⟨_, hdk⟩
          exact ⟨sub, hmem, hdk, hs⟩
      · rintro ⟨sub, hmem, hdk, hs⟩
        refine Or.inr ⟨n, sub, hmem, ?_, m :: rest, rfl, hs⟩
        exact contains_iff_mem.mpr
          (mem_filterDirs.mpr ⟨mem_dirNames.mpr ⟨sub, hmem⟩, hdk⟩)

/-! ## Listing-order invariance: basic properties of `PermTree` -/

mutual

theorem permTree_refl (e : FSEntry) : PermTree e e := by
  cases e with
  | file n c => exact ⟨rfl, rfl⟩
  | dir n es => exact ⟨rfl, es, permForall_refl es, List.Perm.refl es⟩

theorem permForall_refl (es : List FSEntry) : PermForall es es := by
  cases es with
  | nil => trivial
  | cons e rest => exact ⟨permTree_refl e, permForall_refl rest⟩

end

theorem permEntries_refl (es : List FSEntry) : PermEntries es es :=
  ⟨es, permForall_refl es, List.Perm.refl es⟩

theorem permTree_name {e f : FSEntry} (h : PermTree e f) : e.name = f.name := by
  cases e with
  | file n c =>
    cases f with
    | file m b => exact h.1
    | dir m fs => exact False.elim h
  | dir n es =>
    cases f with
    | file m b => exact False.elim h
    | dir m fs => exact h.1

theorem permForall_namesOf {es ms : List FSEntry} (h : PermForall es ms) :
    namesOf es = namesOf ms := by
  induction es generalizing ms with
  | nil =>
    cases ms with
    | nil => rfl
    | cons f l2 => exact False.elim h
  | cons e l ih =>
    cases ms with
    | nil => exact False.elim h
    | cons f l2 =>
      simp only [namesOf, List.map_cons]
      rw [permTree_name h.1, show (l.map FSEntry.name) = l2.map FSEntry.name from ih h.2]

theorem permForall_fileNames {es ms : List FSEntry} (h : PermForall es ms) :
    fileNames es = fileNames ms := by
  induction es generalizing ms with
  | nil =>
    cases ms with
    | nil => rfl
    | cons f l2 => exact False.elim h
  | cons e l ih =>
    cases ms with
    | nil => exact False.elim h
    | cons f l2 =>
      obtain ⟨h1, h2⟩ := h
      cases e with
      | file n c =>
        cases f with
        | file m b =>
          obtain ⟨rfl, rfl⟩ := h1
          simp only [fileNames, List.filterMap_cons]
          exact congrArg _ (ih h2)
        | dir m fs => exact False.elim h1
      | dir n sub =>
        cases f with
        | file m b => exact False.elim h1
        | dir m fs =>
          simp only [fileNames, List.filterMap_cons]
          exact ih h2

theorem permForall_dirNames {es ms : List FSEntry} (h : PermForall es ms) :
    dirNames es = dirNames ms := by
  induction es generalizing ms with
  | nil =>
    cases ms with
    | nil => rfl
    | cons f l2 => exact False.elim h
  | cons e l ih =>
    cases ms with
    | nil => exact False.elim h
    | cons f l2 =>
      obtain ⟨h1, h2⟩ := h
      cases e with
      | file n c =>
        cases f with
        | file m b =>
          simp only [dirNames, List.filterMap_cons]
          exact ih h2
        | dir m fs => exact False.elim h1
      | dir n sub =>
        cases f with
        | file m b => exact False.elim h1
        | dir m fs =>
          obtain ⟨rfl, -⟩ := h1
          simp only [dirNames, List.filterMap_cons]
          exact congrArg _ (ih h2)

theorem permForall_gitignoreContent {es ms : List FSEntry} (h : PermForall es ms) :
    gitignoreContent es = gitignoreContent ms := by
  induction es generalizing ms with
  | nil =>
    cases ms with
    | nil => rfl
    | cons f l2 => exact False.elim h
  | cons e l ih =>
    cases ms with
    | nil => exact False.elim h
    | cons f l2 =>
      obtain ⟨h1, h2⟩ := h
      have hname : e.name = f.name := permTree_name h1
      by_cases hp : e.name = ".gitignore"
      · have hf : f.name = ".gitignore" := hname ▸ hp
        simp only [gitignoreContent, List.find?_cons, decide_eq_true hp, decide_eq_true hf]
        cases e with
        | file n c =>
          cases f with
          | file m b =>
            obtain ⟨rfl, rfl⟩ := h1
            rfl
          | dir m fs => exact False.elim h1
        | dir n sub =>
          cases f with
          | file m b => exact False.elim h1
          | dir m fs => rfl
      · have hf : ¬f.name = ".gitignore" := fun hfn => hp (hname.symm ▸ hfn)
        have hih := ih h2
        simp only [gitignoreContent, List.find?_cons, decide_eq_false hp,
          decide_eq_false hf] at hih ⊢
        exact hih

theorem nodupStrings_iff {l : List String} : nodupStrings l = true ↔ l.Nodup := by
  induction l with
  | nil => simp [nodupStrings]
  | cons n rest ih =>
    simp [nodupStrings, List.nodup_cons, ih, contains_iff_mem]

theorem gitignoreContent_perm {es fs : List FSEntry} (h : es.Perm fs)
    (hnd : (namesOf es).Nodup) : gitignoreContent es = gitignoreContent fs := by
  induction h with
  | nil => rfl
  | cons e h ih =>
    rename_i l1 l2
    by_cases hp : e.name = ".gitignore"
    · simp [gitignoreContent, List.find?_cons, decide_eq_true hp]
    · have hnd2 : (namesOf l1).Nodup := by
        simpa [namesOf] using hnd.of_cons
      have hih := ih hnd2
      simp only [gitignoreContent, List.find?_cons, decide_eq_false hp] at hih ⊢
      exact hih
  | swap a b l =>
    by_cases hpa : a.name = ".gitignore" <;> by_cases hpb : b.name = ".gitignore"
    · exfalso
      simp only [namesOf, List.map_cons, List.nodup_cons] at hnd
      exact hnd.1 (by rw [hpb, hpa]; exact List.mem_cons_self _ _)
    · simp [gitignoreContent, List.find?_cons, decide_eq_true hpa, decide_eq_false hpb]
    · simp [gitignoreContent, List.find?_cons, decide_eq_false hpa, decide_eq_true hpb]
    · simp [gitignoreContent, List.find?_cons, decide_eq_false hpa, decide_eq_false hpb]
  | trans h1 h2 ih1 ih2 =>
    refine (ih1 hnd).trans (ih2 ?_)
    exact (h1.map FSEntry.name).nodup hnd

theorem wfList_iff_all {es : List FSEntry} :
    wfList es = true ↔ ∀ e ∈ es, wfEntry e = true := by
  induction es with
  | nil => simp [wfList]
  | cons e rest ih => simp [wfList, ih]

theorem wfList_perm {es fs : List FSEntry} (h : es.Perm fs) (hw : wfList es = true) :
    wfList fs = true := by
  rw [wfList_iff_all] at hw ⊢
  exact fun e he => hw e (h.symm.subset he)

mutual

theorem permTree_wf {e f : FSEntry} (h : PermTree e f) (hw : wfEntry e = true) :
    wfEntry f = true := by
  cases e with
  | file n c =>
    cases f with
    | file m b => rfl
    | dir m fs => exact False.elim h
  | dir n es =>
    cases f with
    | file m b => exact False.elim h
    | dir m fs =>
      obtain ⟨-, ms, hpf, hperm⟩ := h
      simp only [wfEntry, Bool.and_eq_true] at hw ⊢
      refine ⟨?_, ?_⟩
      · rw [nodupStrings_iff] at hw ⊢
        have h1 : namesOf es = namesOf ms := permForall_namesOf hpf
        have h2 : (namesOf ms).Perm (namesOf fs) := hperm.map FSEntry.name
        exact h2.nodup (h1 ▸ hw.1)
      · exact wfList_perm hperm (permForall_wf hpf hw.2)

theorem permForall_wf {es ms : List FSEntry} (h : PermForall es ms)
    (hw : wfList es = true) : wfList ms = true := by
  cases es with
  | nil =>
    cases ms with
    | nil => rfl
    | cons f l2 => exact False.elim h
  | cons e l =>
    cases ms with
    | nil => exact False.elim h
    | cons f l2 =>
      simp only [wfList, Bool.and_eq_true] at hw ⊢
      exact ⟨permTree_wf h.1 hw.1, permForall_wf h.2 hw.2⟩

end

/-! ## Listing-order invariance of the collected pattern list -/

theorem collectList_eq_flatMap (d : List String) (es : List FSEntry) :
    collectList d es = es.flatMap (collectEntry d) := by
  induction es with
  | nil => rfl
  | cons e rest ih => simp only [collectList, List.flatMap_cons, ih]

theorem collectList_perm_of_perm {d : List String} {es fs : List FSEntry}
    (h : es.Perm fs) : (collectList d es).Perm (collectList d fs) := by
  rw [collectList_eq_flatMap, collectList_eq_flatMap]
  exact h.flatMap_right (collectEntry d)

theorem giPatterns_pointwise {d : List String} {es ms : List FSEntry}
    (h : PermForall es ms) : giPatterns d es = giPatterns d ms := by
  simp [giPatterns, permForall_gitignoreContent h]

theorem giPatterns_perm {d : List String} {es fs : List FSEntry} (h : es.Perm fs)
    (hnd : (namesOf es).Nodup) : giPatterns d es = giPatterns d fs := by
  simp [giPatterns, gitignoreContent_perm h hnd]

mutual

theorem collectEntry_perm {e f : FSEntry} (d : List String) (h : PermTree e f)
    (hw : wfEntry e = true) : (collectEntry d e).Perm (collectEntry d f) := by
  cases e with
  | file n c =>
    cases f with
    | file m b => exact List.Perm.refl _
    | dir m fs => exact False.elim h
  | dir n es2 =>
    cases f with
    | file m b => exact False.elim h
    | dir m fs2 =>
      obtain ⟨heq, ms, hpf, hperm⟩ := h
      subst heq
      simp only [wfEntry, Bool.and_eq_true] at hw
      have hndms : (namesOf ms).Nodup := by
        rw [← permForall_namesOf hpf]
        exact nodupStrings_iff.mp hw.1
      have hA : giPatterns (d ++ [n]) es2 = giPatterns (d ++ [n]) fs2 :=
        (giPatterns_pointwise hpf).trans (giPatterns_perm hperm hndms)
      have hB : (collectList (d ++ [n]) es2).Perm (collectList (d ++ [n]) fs2) :=
        (collectList_pointwise (d ++ [n]) hpf hw.2).trans (collectList_perm_of_perm hperm)
      simp only [collectEntry]
      rw [hA]
      exact hB.append_left _

theorem collectList_pointwise {es ms : List FSEntry} (d : List String)
    (h : PermForall es ms) (hw : wfList es = true) :
    (collectList d es).Perm (collectList d ms) := by
  cases es with
  | nil =>
    cases ms with
    | nil => exact List.Perm.refl _
    | cons f l2 => exact False.elim h
  | cons e l =>
    cases ms with
    | nil => exact False.elim h
    | cons f l2 =>
      simp only [wfList, Bool.and_eq_true] at hw
      exact List.Perm.append (collectEntry_perm d h.1 hw.1)
        (collectList_pointwise d h.2 hw.2)

end

/-- First character contributed by the first segment of a re-anchored
pattern: the segment's first character, or `/` when it is empty. -/
def firstCharOr (s : String) : Char :=
  s.data.head?.getD '/'

/-- First character of patterns anchored at a path whose first segment
is the head of `l` (`/` never happens for real names but is harmless). -/
def firstSegChar : List String → Char
  | [] => '/'
  | s :: _ => firstCharOr s

theorem firstSegChar_append (l1 l2 : List String) (h : l1 ≠ []) :
    firstSegChar (l1 ++ l2) = firstSegChar l1 := by
  cases l1 with
  | nil => exact absurd rfl h
  | cons s rest => rfl

theorem anchorPattern_head (n : String) (rest : List String) (line : String) :
    (anchorPattern (n :: rest) line).data.head? = some (firstCharOr n) := by
  have hne : (n :: rest) ≠ ([] : List String) := by simp
  simp only [anchorPattern, if_neg hne]
  cases rest with
  | nil =>
    simp only [joinPath]
    rw [String.data_append, String.data_append]
    cases hn : n.data with
    | nil => simp [firstCharOr, hn]
    | cons c cs => simp [firstCharOr, hn]
  | cons r rs =>
    simp only [joinPath]
    rw [String.data_append, String.data_append, String.data_append, String.data_append]
    cases hn : n.data with
    | nil => simp [firstCharOr, hn]
    | cons c cs => simp [firstCharOr, hn]

theorem mem_collectList_exists {d : List String} {es : List FSEntry} {pat : String}
    (h : pat ∈ collectList d es) : ∃ e ∈ es, pat ∈ collectEntry d e := by
  rw [collectList_eq_flatMap] at h
  simpa using h

theorem mem_giPatterns {d : List String} {es : List FSEntry} {pat : String}
    (h : pat ∈ giPatterns d es) : ∃ line, pat = anchorPattern d line := by
  simp only [giPatterns] at h
  rcases hgc : gitignoreContent es with - | oc
  · rw [hgc] at h
    simp at h
  · cases oc with
    | none =>
      rw [hgc] at h
      simp at h
    | some content =>
      rw [hgc] at h
      simp only [List.mem_map] at h
      obtain ⟨line, -, rfl⟩ := h
      exact ⟨line, rfl⟩

mutual

theorem collectEntry_heads (e : FSEntry) :
    ∀ (d : List String) (pat : String), pat ∈ collectEntry d e →
      pat.data.head? = some (firstSegChar (d ++ [e.name])) := by
  cases e with
  | file n c =>
    intro d pat h
    simp [collectEntry] at h
  | dir n sub =>
    intro d pat h
    simp only [collectEntry, List.mem_append] at h
    have hgoal : firstSegChar (d ++ [FSEntry.name (.dir n sub)]) =
        firstSegChar (d ++ [n]) := rfl
    rw [hgoal]
    rcases h with h | h
    · obtain ⟨line, rfl⟩ := mem_giPatterns h
      cases d with
      | nil => exact anchorPattern_head n [] line
      | cons m rest =>
        rw [show ((m :: rest) ++ [n]) = m :: (rest ++ [n]) from rfl]
        rw [show firstSegChar (m :: (rest ++ [n])) = firstCharOr m from rfl]
        exact anchorPattern_head m (rest ++ [n]) line
    · obtain ⟨n2, sub2, -, hh⟩ := collectList_heads sub (d ++ [n]) pat h
      rw [hh, firstSegChar_append (d ++ [n]) [n2] (by simp)]

theorem collectList_heads (es : List FSEntry) :
    ∀ (d : List String) (pat : String), pat ∈ collectList d es →
      ∃ n sub, FSEntry.dir n sub ∈ es ∧
        pat.data.head? = some (firstSegChar (d ++ [n])) := by
  cases es with
  | nil =>
    intro d pat h
    simp [collectList] at h
  | cons e rest =>
    intro d pat h
    simp only [collectList, List.mem_append] at h
    rcases h with h | h
    · cases e with
      | file nf cf => simp [collectEntry] at h
      | dir n2 sub2 =>
        refine ⟨n2, sub2, List.mem_cons_self _ _, ?_⟩
        exact collectEntry_heads (.dir n2 sub2) d pat h
    · obtain ⟨n2, sub2, hmem, hh⟩ := collectList_heads rest d pat h
      exact ⟨n2, sub2, List.mem_cons_of_mem _ hmem, hh⟩

end

/-! ## Verdict invariance for reorderable non-negated pattern blocks -/

theorem parse_tail_negated {b : Bool} {segs2 : List (List Char)} {gp : GitPattern}
    (hp : (if segs2 = [] then none else some (GitPattern.mk b segs2)) = some gp) :
    gp.negated = b := by
  split at hp
  · exact absurd hp (by simp)
  · cases Option.some.inj hp
    rfl

theorem parseGitPattern_not_negated {s : String} (h : s.data.head? ≠ some '!')
    {gp : GitPattern} (hp : parseGitPattern s = some gp) : gp.negated = false := by
  simp only [parseGitPattern, decide_eq_false h, Bool.false_eq_true, if_false] at hp
  by_cases h1 : s.data = []
  · simp [h1] at hp
  · rw [if_neg h1] at hp
    by_cases h2 : s.data.head? = some '#'
    · simp [h2] at hp
    · rw [if_neg h2] at hp
      by_cases h3 : s.data = ['/']
      · simp [h3] at hp
      · rw [if_neg h3] at hp
        exact parse_tail_negated hp

theorem matchVerdict_append (σ1 σ2 : List GitPattern) (p : List String) :
    matchVerdict (σ1 ++ σ2) p =
      σ2.foldl (fun acc gp => if gitMatch gp p then !gp.negated else acc)
        (matchVerdict σ1 p) := by
  simp [matchVerdict, List.foldl_append]

theorem foldl_verdict_nonneg {σ : List GitPattern}
    (hneg : ∀ gp ∈ σ, gp.negated = false) (p : List String) (acc : Bool) :
    σ.foldl (fun acc gp => if gitMatch gp p then !gp.negated else acc) acc =
      (acc || σ.any (fun gp => gitMatch gp p)) := by
  induction σ generalizing acc with
  | nil => simp
  | cons gp σ ih =>
    simp only [List.foldl_cons, List.any_cons]
    have htail : ∀ g ∈ σ, g.negated = false :=
      fun g hg => hneg g (List.mem_cons_of_mem _ hg)
    by_cases hm : gitMatch gp p = true
    · rw [if_pos hm, hneg gp (List.mem_cons_self _ _), ih htail]
      simp [hm]
    · rw [if_neg hm, ih htail]
      simp [hm]

theorem any_congr_perm {α : Type} {l1 l2 : List α} (h : l1.Perm l2) (f : α → Bool) :
    l1.any f = l2.any f := by
  by_cases h1 : l1.any f = true
  · rw [h1]
    rcases List.any_eq_true.mp h1 with ⟨x, hx, hfx⟩
    exact (List.any_eq_true.mpr ⟨x, h.subset hx, hfx⟩).symm
  · rw [Bool.not_eq_true] at h1
    rw [h1]
    rcases h2 : l2.any f with - | -
    · rfl
    · rcases List.any_eq_true.mp h2 with ⟨x, hx, hfx⟩
      exact absurd (List.any_eq_true.mpr ⟨x, h.symm.subset hx, hfx⟩) (by simp [h1])

/-- The key order-independence lemma for the matcher: a rule set whose
fixed prefix `R` is followed by a block of non-negated patterns gives
the same verdict however the block is ordered. -/
theorem matchVerdict_parse_block {R S1 S2 : List String} (hperm : S1.Perm S2)
    (hne : ∀ s ∈ S1, s.data.head? ≠ some '!') (p : List String) :
    matchVerdict (parseSpec (R ++ S1)) p = matchVerdict (parseSpec (R ++ S2)) p := by
  have hne2 : ∀ s ∈ S2, s.data.head? ≠ some '!' :=
    fun s hs => hne s (hperm.symm.subset hs)
  have hn1 : ∀ gp ∈ parseSpec S1, gp.negated = false := by
    intro gp hgp
    rcases List.mem_filterMap.mp hgp with ⟨s, hs, hps⟩
    exact parseGitPattern_not_negated (hne s hs) hps
  have hn2 : ∀ gp ∈ parseSpec S2, gp.negated = false := by
    intro gp hgp
    rcases List.mem_filterMap.mp hgp with ⟨s, hs, hps⟩
    exact parseGitPattern_not_negated (hne2 s hs) hps
  have hsplit : ∀ S : List String, parseSpec (R ++ S) = parseSpec R ++ parseSpec S :=
    fun S => List.filterMap_append _ _ _
  rw [hsplit S1, hsplit S2, matchVerdict_append, matchVerdict_append,
    foldl_verdict_nonneg hn1, foldl_verdict_nonneg hn2,
    any_congr_perm (show (parseSpec S1).Perm (parseSpec S2) from
      hperm.filterMap parseGitPattern) (fun gp => gitMatch gp p)]

/-! ## Listing-order invariance of the filtered walk -/

/-- One step of `walkList`, as a per-entry function. -/
def walkItem (cfg : Config) (spec : List GitPattern) (d : List String)
    (keep : List String) : FSEntry → List (List String)
  | .file _ _ => []
  | .dir n sub =>
    if keep.contains n then walkEntry cfg spec d (.dir n sub) else []

theorem walkList_eq_flatMap (cfg : Config) (σ : List GitPattern) (d keep : List String)
    (es : List FSEntry) : walkList cfg σ d keep es = es.flatMap (walkItem cfg σ d keep) := by
  induction es with
  | nil => rfl
  | cons e rest ih =>
    cases e with
    | file n c => simpa [walkList, walkItem, List.flatMap_cons] using ih
    | dir n sub => simp [walkList, walkItem, List.flatMap_cons, ih]

theorem filterFiles_congr {cfg : Config} {σ1 σ2 : List GitPattern} {d : List String}
    (hσ : ∀ p, matchVerdict σ1 p = matchVerdict σ2 p) (names : List String) :
    filterFiles cfg σ1 d names = filterFiles cfg σ2 d names := by
  simp only [filterFiles]
  rw [show (fun n => !matchVerdict σ1 (d ++ [n])) = (fun n => !matchVerdict σ2 (d ++ [n]))
    from funext (fun n => by rw [hσ])]

theorem filterDirs_congr {cfg : Config} {σ1 σ2 : List GitPattern} {d : List String}
    (hσ : ∀ p, matchVerdict σ1 p = matchVerdict σ2 p) (names : List String) :
    filterDirs cfg σ1 d names = filterDirs cfg σ2 d names := by
  simp only [filterDirs]
  rw [show (fun n => !matchVerdict σ1 (d ++ [n])) = (fun n => !matchVerdict σ2 (d ++ [n]))
    from funext (fun n => by rw [hσ])]

theorem filterFiles_perm {cfg : Config} {σ : List GitPattern} {d : List String}
    {n1 n2 : List String} (h : n1.Perm n2) :
    (filterFiles cfg σ d n1).Perm (filterFiles cfg σ d n2) := by
  simp only [filterFiles]
  split_ifs <;> repeat (first | exact h | apply List.Perm.filter)

theorem filterDirs_perm {cfg : Config} {σ : List GitPattern} {d : List String}
    {n1 n2 : List String} (h : n1.Perm n2) :
    (filterDirs cfg σ d n1).Perm (filterDirs cfg σ d n2) := by
  simp only [filterDirs]
  split_ifs <;> repeat (first | exact h | apply List.Perm.filter)

theorem contains_congr_perm {l1 l2 : List String} (h : l1.Perm l2) (n : String) :
    l1.contains n = l2.contains n := by
  by_cases h1 : l1.contains n = true
  · rw [h1, Eq.comm, contains_iff_mem]
    exact h.subset (contains_iff_mem.mp h1)
  · rw [Bool.not_eq_true] at h1
    rw [h1, Eq.comm]
    rw [Bool.eq_false_iff]
    intro hc
    have : l1.contains n = true :=
      contains_iff_mem.mpr (h.symm.subset (contains_iff_mem.mp hc))
    rw [h1] at this
    exact Bool.false_ne_true this

mutual

theorem walkEntry_perm (cfg : Config) (σ1 σ2 : List GitPattern)
    (hσ : ∀ p, matchVerdict σ1 p = matchVerdict σ2 p) (e f : FSEntry) :
    ∀ (d : List String), PermTree e f →
      (walkEntry cfg σ1 d e).Perm (walkEntry cfg σ2 d f) := by
  cases e with
  | file n c =>
    intro d h
    cases f with
    | file m b => exact List.Perm.refl _
    | dir m fs => exact False.elim h
  | dir n sub =>
    intro d h
    cases f with
    | file m b => exact False.elim h
    | dir m fs2 =>
      obtain ⟨heq, ms, hpf, hperm⟩ := h
      subst heq
      simp only [walkEntry]
      refine List.Perm.append ?_ ?_
      · -- files part
        have h1 : filterFiles cfg σ1 (d ++ [n]) (fileNames sub) =
            filterFiles cfg σ2 (d ++ [n]) (fileNames ms) := by
          rw [filterFiles_congr hσ, permForall_fileNames hpf]
        have h2 : (filterFiles cfg σ2 (d ++ [n]) (fileNames ms)).Perm
            (filterFiles cfg σ2 (d ++ [n]) (fileNames fs2)) :=
          filterFiles_perm (hperm.filterMap _)
        rw [h1]
        exact h2.map _
      · -- subdirectory part
        have hkeep1 : filterDirs cfg σ1 (d ++ [n]) (dirNames sub) =
            filterDirs cfg σ2 (d ++ [n]) (dirNames ms) := by
          rw [filterDirs_congr hσ, permForall_dirNames hpf]
        have hkeepP : (filterDirs cfg σ2 (d ++ [n]) (dirNames ms)).Perm
            (filterDirs cfg σ2 (d ++ [n]) (dirNames fs2)) :=
          filterDirs_perm (hperm.filterMap _)
        have step1 : (walkList cfg σ1 (d ++ [n])
            (filterDirs cfg σ1 (d ++ [n]) (dirNames sub)) sub).Perm
            (walkList cfg σ2 (d ++ [n])
              (filterDirs cfg σ2 (d ++ [n]) (dirNames ms)) ms) := by
          refine walkList_perm_pointwise cfg σ1 σ2 hσ sub ms _ _ _ ?_ hpf
          intro n2
          rw [hkeep1]
        have step2 : (walkList cfg σ2 (d ++ [n])
            (filterDirs cfg σ2 (d ++ [n]) (dirNames ms)) ms).Perm
            (walkList cfg σ2 (d ++ [n])
              (filterDirs cfg σ2 (d ++ [n]) (dirNames fs2)) fs2) := by
          rw [walkList_eq_flatMap, walkList_eq_flatMap]
          rw [show walkItem cfg σ2 (d ++ [n]) (filterDirs cfg σ2 (d ++ [n]) (dirNames ms)) =
              walkItem cfg σ2 (d ++ [n]) (filterDirs cfg σ2 (d ++ [n]) (dirNames fs2)) from ?_]
          · exact hperm.flatMap_right _
          · funext e2
            cases e2 with
            | file n2 c2 => rfl
            | dir n2 sub2 =>
              simp only [walkItem]
              rw [contains_congr_perm hkeepP]
        exact step1.trans step2

theorem walkList_perm_pointwise (cfg : Config) (σ1 σ2 : List GitPattern)
    (hσ : ∀ p, matchVerdict σ1 p = matchVerdict σ2 p) (es ms : List FSEntry) :
    ∀ (d keep1 keep2 : List String),
      (∀ n, keep1.contains n = keep2.contains n) → PermForall es ms →
      (walkList cfg σ1 d keep1 es).Perm (walkList cfg σ2 d keep2 ms) := by
  cases es with
  | nil =>
    intro d keep1 keep2 hkeep h
    cases ms with
    | nil => exact List.Perm.refl _
    | cons f l2 => exact False.elim h
  | cons e l =>
    intro d keep1 keep2 hkeep h
    cases ms with
    | nil => exact False.elim h
    | cons f l2 =>
      obtain ⟨h1, h2⟩ := h
      cases e with
      | file n c =>
        cases f with
        | file m b =>
          simpa [walkList] using
            walkList_perm_pointwise cfg σ1 σ2 hσ l l2 d keep1 keep2 hkeep h2
        | dir m fs => exact False.elim h1
      | dir n sub =>
        cases f with
        | file m b => exact False.elim h1
        | dir m fs2 =>
          have hname : n = m := h1.1
          subst hname
          simp only [walkList]
          rw [← hkeep n]
          by_cases hc : keep1.contains n = true
          · rw [if_pos hc, if_pos hc]
            exact List.Perm.append
              (walkEntry_perm cfg σ1 σ2 hσ (.dir n sub) (.dir n fs2) d h1)
              (walkList_perm_pointwise cfg σ1 σ2 hσ l l2 d keep1 keep2 hkeep h2)
          · rw [if_neg hc, if_neg hc]
            simpa using walkList_perm_pointwise cfg σ1 σ2 hσ l l2 d keep1 keep2 hkeep h2

end

/-- Full listing-order invariance of the walk, given verdict-equal rule
sets. -/
theorem walkRoot_perm {cfg : Config} {σ1 σ2 : List GitPattern}
    (hσ : ∀ p, matchVerdict σ1 p = matchVerdict σ2 p) {es fs : List FSEntry}
    (h : PermEntries es fs) : (walkRoot cfg σ1 es).Perm (walkRoot cfg σ2 fs) := by
  obtain ⟨ms, hpf, hperm⟩ := h
  simp only [walkRoot]
  refine List.Perm.append ?_ ?_
  · have h1 : filterFiles cfg σ1 [] (fileNames es) =
        filterFiles cfg σ2 [] (fileNames ms) := by
      rw [filterFiles_congr hσ, permForall_fileNames hpf]
    rw [h1]
    exact (filterFiles_perm (hperm.filterMap _)).map _
  · have hkeepP : (filterDirs cfg σ2 [] (dirNames ms)).Perm
        (filterDirs cfg σ2 [] (dirNames fs)) :=
      filterDirs_perm (hperm.filterMap _)
    have step1 : (walkList cfg σ1 [] (filterDirs cfg σ1 [] (dirNames es)) es).Perm
        (walkList cfg σ2 [] (filterDirs cfg σ2 [] (dirNames ms)) ms) := by
      refine walkList_perm_pointwise cfg σ1 σ2 hσ es ms _ _ _ ?_ hpf
      intro n2
      rw [filterDirs_congr hσ, permForall_dirNames hpf]
    have step2 : (walkList cfg σ2 [] (filterDirs cfg σ2 [] (dirNames ms)) ms).Perm
        (walkList cfg σ2 [] (filterDirs cfg σ2 [] (dirNames fs)) fs) := by
      rw [walkList_eq_flatMap, walkList_eq_flatMap]
      rw [show walkItem cfg σ2 [] (filterDirs cfg σ2 [] (dirNames ms)) =
          walkItem cfg σ2 [] (filterDirs cfg σ2 [] (dirNames fs)) from ?_]
      · exact hperm.flatMap_right _
      · funext e2
        cases e2 with
        | file n2 c2 => rfl
        | dir n2 sub2 =>
          simp only [walkItem]
          rw [contains_congr_perm hkeepP]
    exact step1.trans step2

/-! ## Assembly: invariance and characterisation of the emitted file list -/

theorem collectRoot_decomp {es fs : List FSEntry} (h : PermEntries es fs)
    (hw : wfRoot es = true) :
    giPatterns [] es = giPatterns [] fs ∧
      (collectList [] es).Perm (collectList [] fs) := by
  obtain ⟨ms, hpf, hperm⟩ := h
  simp only [wfRoot, Bool.and_eq_true] at hw
  constructor
  · refine (giPatterns_pointwise hpf).trans (giPatterns_perm hperm ?_)
    rw [← permForall_namesOf hpf]
    exact nodupStrings_iff.mp hw.1
  · exact (collectList_pointwise [] hpf hw.2).trans (collectList_perm_of_perm hperm)

theorem collectList_root_heads {es : List FSEntry} (hnb : noBangTop es = true)
    {pat : String} (h : pat ∈ collectList [] es) : pat.data.head? ≠ some '!' := by
  obtain ⟨n, sub, hmem, hh⟩ := collectList_heads es [] pat h
  rw [hh, show firstSegChar ([] ++ [n]) = firstCharOr n from rfl]
  have hnd : n ∈ dirNames es := mem_dirNames.mpr ⟨sub, hmem⟩
  have hnb2 := (List.all_eq_true.mp hnb) n hnd
  simp only [Bool.not_eq_true', headIs, decide_eq_false_iff_not] at hnb2
  intro hcontra
  have heq := Option.some.inj hcontra
  cases hd : n.data.head? with
  | none =>
    rw [firstCharOr, hd] at heq
    exact absurd heq (by decide)
  | some c =>
    rw [firstCharOr, hd] at heq
    simp only [Option.getD_some] at heq
    exact hnb2 (by rw [hd, heq])

theorem dirSpec_verdict_eq {cfg : Config} {es fs : List FSEntry} (h : PermEntries es fs)
    (hw : wfRoot es = true) (hnb : noBangTop es = true) (p : List String) :
    matchVerdict (dirSpec cfg es) p = matchVerdict (dirSpec cfg fs) p := by
  by_cases hig : cfg.ignore_gitignore = true
  · simp [dirSpec, hig]
  · obtain ⟨hgi, hcl⟩ := collectRoot_decomp h hw
    rw [Bool.not_eq_true] at hig
    simp only [dirSpec, hig, Bool.false_eq_true, if_false]
    rw [collectRoot, collectRoot, ← hgi]
    exact matchVerdict_parse_block hcl (fun s hs => collectList_root_heads hnb hs) p

/-- The sorted emitted file list is invariant under re-listing the
directory entries, for well-formed trees with no `!`-prefixed top-level
directory name. -/
theorem filesToProcess_perm_invariant {cfg : Config} {tp : String}
    {es fs : List FSEntry} (h : PermEntries es fs) (hw : wfRoot es = true)
    (hnb : noBangTop es = true) :
    filesToProcess cfg tp es = filesToProcess cfg tp fs := by
  apply sortStrings_eq_of_perm
  exact (walkRoot_perm (dirSpec_verdict_eq h hw hnb) h).map (fullPath tp)

theorem mem_filesToProcess {cfg : Config} {tp : String} {es : List FSEntry}
    {full : String} :
    full ∈ filesToProcess cfg tp es ↔
      ∃ q, survivesB cfg (dirSpec cfg es) [] es q = true ∧ full = fullPath tp q := by
  simp only [filesToProcess]
  rw [(sortStrings_perm _).mem_iff]
  simp only [List.mem_map]
  constructor
  · rintro ⟨q, hq, rfl⟩
    exact ⟨q, mem_walkRoot.mp hq, rfl⟩
  · rintro ⟨q, hq, rfl⟩
    exact ⟨q, mem_walkRoot.mpr hq, rfl⟩

theorem filesToProcess_sorted (cfg : Config) (tp : String) (es : List FSEntry) :
    (filesToProcess cfg tp es).Sorted (· ≤ ·) := by
  have := sortStrings_sorted ((walkRoot cfg (dirSpec cfg es) es).map (fullPath tp))
  exact this.imp (fun h => lexLe_iff_le.mp h)

/-! ## Concrete example trees used by the claims -/

/-- The default configuration: no extension filter, hidden excluded,
`--ignore` applies to files and directories, gitignore honoured, no
`--ignore` patterns. -/
def cfgDefault : Config := ⟨[], false, false, false, []⟩

/-- A top-level directory literally named `!b`: its re-anchored
`.gitignore` pattern `!b/keep` parses as a negation of `b/keep`. -/
def bangDir : FSEntry := .dir "!b" [.file ".gitignore" (some "keep")]

/-- A top-level directory `b` whose `.gitignore` excludes its file
`keep`. -/
def plainDir : FSEntry := .dir "b" [.file ".gitignore" (some "keep"), .file "keep" (some "k")]

/-- `sub/` with a `.gitignore` holding `build/` and a `build`
subdirectory. -/
def subDir : FSEntry :=
  .dir "sub" [.file ".gitignore" (some "build/"), .dir "build" [.file "x.txt" (some "x")],
    .file "s.txt" (some "s")]

/-- A top-level `build/` directory. -/
def buildDir : FSEntry := .dir "build" [.file "y.txt" (some "y")]

/-! ## Claim C1 -/

/-- C1 — counterexample to the claim as stated.  The two listings are
re-listings of one another (`PermEntries`), yet the emitted file lists
differ: when the top-level directory `!b` is walked first, the
collected patterns are `!b/keep` (a negation of `b/keep`) then
`b/keep`, so `b/keep` is excluded; listed the other way round the
negation comes last and `b/keep` is re-included.  The emitted set is
therefore not independent of the filesystem's directory-entry order. -/
theorem c1_counterexample :
    PermEntries [bangDir, plainDir] [plainDir, bangDir] ∧
      filesToProcess cfgDefault "." [bangDir, plainDir] ≠
        filesToProcess cfgDefault "." [plainDir, bangDir] :=
  ⟨⟨[bangDir, plainDir], permForall_refl _, List.Perm.swap plainDir bangDir []⟩, by decide⟩

/-- C1 (amended): for every directory target, (i) the emitted full
paths are exactly the files that survive — at each visited directory,
in the fixed order hidden filter, ignore-glob filter, gitignore filter,
extension filter (`survivesB` with `fileKept`/`dirKept`); (ii) the
emission order is the lexicographic string sort of the full file
paths; and (iii) the emitted list is independent of the order in which
the filesystem lists directory entries, provided the tree is
well-formed (distinct names per directory) and no top-level directory
name begins with `!` (such a name turns re-anchored subtree patterns
into negations whose position relative to sibling patterns depends on
the listing order — see the counterexample). -/
theorem c1_emitted_files (cfg : Config) (tp : String) (es fs : List FSEntry)
    (hperm : PermEntries es fs) (hw : wfRoot es = true) (hnb : noBangTop es = true) :
    (∀ full, full ∈ filesToProcess cfg tp es ↔
        ∃ q, survivesB cfg (dirSpec cfg es) [] es q = true ∧ full = fullPath tp q) ∧
      (filesToProcess cfg tp es).Sorted (· ≤ ·) ∧
      filesToProcess cfg tp es = filesToProcess cfg tp fs :=
  ⟨fun _ => mem_filesToProcess, filesToProcess_sorted cfg tp es,
    filesToProcess_perm_invariant hperm hw hnb⟩

/-- C1 witness: the amended theorem applied to a concrete two-directory
tree and a re-listing of it. -/
theorem c1_emitted_files_witness :
    (∀ full, full ∈ filesToProcess cfgDefault "." [subDir, buildDir] ↔
        ∃ q, survivesB cfgDefault (dirSpec cfgDefault [subDir, buildDir]) []
            [subDir, buildDir] q = true ∧ full = fullPath "." q) ∧
      (filesToProcess cfgDefault "." [subDir, buildDir]).Sorted (· ≤ ·) ∧
      filesToProcess cfgDefault "." [subDir, buildDir] =
        filesToProcess cfgDefault "." [buildDir, subDir] :=
  c1_emitted_files cfgDefault "." [subDir, buildDir] [buildDir, subDir]
    ⟨[subDir, buildDir], permForall_refl _, List.Perm.swap buildDir subDir []⟩
    (by decide) (by decide)

/-! ## Claim C2: characterisation of the collected pattern list -/

theorem hasGitignoreLineAt_nil {es : List FSEntry} {line : String} :
    hasGitignoreLineAt es [] line = true ↔
      ∃ c, gitignoreContent es = some (some c) ∧ line ∈ gitignoreLines c := by
  simp only [hasGitignoreLineAt]
  rcases h : gitignoreContent es with - | oc
  · simp
  · cases oc with
    | none => simp
    | some c => simp [contains_iff_mem]

theorem hasGitignoreLineAt_cons {es : List FSEntry} {n : String} {dd : List String}
    {line : String} :
    hasGitignoreLineAt es (n :: dd) line = true ↔
      ∃ sub, FSEntry.dir n sub ∈ es ∧ hasGitignoreLineAt sub dd line = true := by
  simp only [hasGitignoreLineAt, List.any_eq_true]
  constructor
  · rintro ⟨e, he, hf⟩
    cases e with
    | file _ _ => simp at hf
    | dir n' sub =>
      simp only [Bool.and_eq_true, beq_iff_eq] at hf
      obtain ⟨rfl, h2⟩ := hf
      exact ⟨sub, he, h2⟩
  · rintro ⟨sub, hmem, h⟩
    exact ⟨.dir n sub, hmem, by simp [h]⟩

theorem mem_giPatterns_iff {d : List String} {es : List FSEntry} {pat : String} :
    pat ∈ giPatterns d es ↔
      ∃ line, hasGitignoreLineAt es [] line = true ∧ pat = anchorPattern d line := by
  simp only [giPatterns]
  rcases h : gitignoreContent es with - | oc
  · simp [hasGitignoreLineAt_nil, h]
  · cases oc with
    | none => simp [hasGitignoreLineAt_nil, h]
    | some c =>
      simp only [List.mem_map, hasGitignoreLineAt_nil, h, Option.some.injEq]
      constructor
      · rintro ⟨line, hl, rfl⟩
        exact ⟨line, ⟨c, rfl, hl⟩, rfl⟩
      · rintro ⟨line, ⟨c2, hc2, hl⟩, rfl⟩
        obtain rfl : c = c2 := hc2
        exact ⟨line, hl, rfl⟩

mutual

theorem collectEntry_mem_iff (e : FSEntry) :
    ∀ (d : List String) (pat : String),
      pat ∈ collectEntry d e ↔
        ∃ n sub, e = FSEntry.dir n sub ∧
          ∃ dd line, hasGitignoreLineAt sub dd line = true ∧
            pat = anchorPattern (d ++ n :: dd) line := by
  cases e with
  | file n c =>
    intro d pat
    simp [collectEntry]
  | dir n sub =>
    intro d pat
    simp only [collectEntry, List.mem_append]
    rw [mem_giPatterns_iff, collectList_mem_iff sub (d ++ [n]) pat]
    constructor
    · rintro (⟨line, hl, rfl⟩ | ⟨n2, sub2, hmem, dd2, line, hl, rfl⟩)
      · exact ⟨n, sub, rfl, [], line, hl, by simp⟩
      · refine ⟨n, sub, rfl, n2 :: dd2, line, hasGitignoreLineAt_cons.mpr ⟨sub2, hmem, hl⟩, ?_⟩
        simp
    · rintro ⟨n', sub', heq, dd, line, hl, rfl⟩
      obtain ⟨rfl, rfl⟩ : n' = n ∧ sub' = sub := by
        cases heq; exact ⟨rfl, rfl⟩
      cases dd with
      | nil => exact Or.inl ⟨line, hl, by simp⟩
      | cons n2 dd2 =>
        obtain ⟨sub2, hmem, hl2⟩ := hasGitignoreLineAt_cons.mp hl
        exact Or.inr ⟨n2, sub2, hmem, dd2, line, hl2, by simp⟩

theorem collectList_mem_iff (es : List FSEntry) :
    ∀ (d : List String) (pat : String),
      pat ∈ collectList d es ↔
        ∃ n sub, FSEntry.dir n sub ∈ es ∧
          ∃ dd line, hasGitignoreLineAt sub dd line = true ∧
            pat = anchorPattern (d ++ n :: dd) line := by
  cases es with
  | nil =>
    intro d pat
    simp [collectList]
  | cons e rest =>
    intro d pat
    simp only [collectList, List.mem_append]
    rw [collectEntry_mem_iff e d pat, collectList_mem_iff rest d pat]
    constructor
    · rintro (⟨n, sub, rfl, h⟩ | ⟨n, sub, hmem, h⟩)
      · exact ⟨n, sub, List.mem_cons_self _ _, h⟩
      · exact ⟨n, sub, List.mem_cons_of_mem _ hmem, h⟩
    · rintro ⟨n, sub, hmem, h⟩
      rcases List.mem_cons.mp hmem with heq | hmem2
      · exact Or.inl ⟨n, sub, heq.symm, h⟩
      · exact Or.inr ⟨n, sub, hmem2, h⟩

end

/-- The full characterisation of `collectRoot`: a pattern is collected
exactly when it is a (trimmed, non-empty, non-comment) line of the
`.gitignore` of some directory `dd` of the tree, re-anchored by
`anchorPattern`: stored verbatim when `dd` is the root itself, else
prefixed with `dd`'s path and `/`. -/
theorem mem_collectRoot_iff {es : List FSEntry} {pat : String} :
    pat ∈ collectRoot es ↔
      ∃ dd line, hasGitignoreLineAt es dd line = true ∧
        pat = anchorPattern dd line := by
  simp only [collectRoot, List.mem_append]
  rw [mem_giPatterns_iff, collectList_mem_iff es [] pat]
  constructor
  · intro h
    rcases h with ⟨line, hl, hpat⟩ | ⟨n, sub, hmem, dd2, line, hl, hpat⟩
    · exact ⟨[], line, hl, hpat⟩
    · exact ⟨n :: dd2, line, hasGitignoreLineAt_cons.mpr ⟨sub, hmem, hl⟩,
        by simpa using hpat⟩
  · intro h
    rcases h with ⟨dd, line, hl, hpat⟩
    cases dd with
    | nil => exact Or.inl ⟨line, hl, hpat⟩
    | cons n dd2 =>
      obtain ⟨sub, hmem, hl2⟩ := hasGitignoreLineAt_cons.mp hl
      exact Or.inr ⟨n, sub, hmem, dd2, line, hl2, by simpa using hpat⟩

/-- C2: for every tree, the collected rule set contains exactly the
non-empty, non-comment `.gitignore` lines, each re-anchored as
`d/pattern` for the directory `d` holding the file and stored verbatim
when `d` is the traversal root (`anchorPattern`); consequently the
line `build/` in `sub/.gitignore` is stored as `sub/build/`, the files
under `sub/build/` are excluded, and the top-level `build/` directory
is not (its file `y.txt` is emitted, `sub/build/x.txt` is not). -/
theorem c2_gitignore_reanchoring :
    (∀ (es : List FSEntry) (pat : String),
        pat ∈ collectRoot es ↔
          ∃ dd line, hasGitignoreLineAt es dd line = true ∧
            pat = anchorPattern dd line) ∧
      collectRoot [subDir, buildDir] = ["sub/build/"] ∧
      filesToProcess cfgDefault "." [subDir, buildDir] =
        ["./build/y.txt", "./sub/s.txt"] :=
  ⟨fun _ _ => mem_collectRoot_iff, by decide, by decide⟩

/-! ## Claim C3 -/

theorem matchVerdict_two_last_neg {σ : List GitPattern} {x y : GitPattern}
    (hneg : y.negated = true) {p : List String} (hm : gitMatch y p = true) :
    matchVerdict (σ ++ [x, y]) p = false := by
  simp [matchVerdict, List.foldl_append, hm, hneg]

/-- A root-level tree whose `.gitignore` holds `*.log` then
`!keep.log`. -/
def logRootTree : List FSEntry :=
  [.file ".gitignore" (some "*.log\n!keep.log"), .file "keep.log" (some "k"),
   .file "other.log" (some "o"), .file "a.txt" (some "a")]

/-- `sub/` whose `.gitignore` holds `*.log` then `!keep.log`: after
re-anchoring the negation line becomes `sub/!keep.log`, whose `!` is no
longer leading. -/
def subLogDir : FSEntry :=
  .dir "sub" [.file ".gitignore" (some "*.log\n!keep.log"), .file "keep.log" (some "k"),
    .file "a.txt" (some "a")]

/-- C3 — counterexample to the claim as stated: in a collected
`.gitignore` from a subdirectory, the rule set does contain `*.log`
followed (after re-anchoring) by the negation line, but the negation is
lost — the stored pattern is `sub/!keep.log`, whose `!` is not leading
— so `sub/keep.log` is *not* retained in the emitted set (only
`sub/a.txt` is emitted). -/
theorem c3_counterexample :
    collectRoot [subLogDir] = ["sub/*.log", "sub/!keep.log"] ∧
      filesToProcess cfgDefault "." [subLogDir] = ["./sub/a.txt"] :=
  ⟨by decide, by decide⟩

/-- C3 (amended): for every rule set in which the pattern `*.log` is
followed by the final pattern `!keep.log` *as stored verbatim from the
traversal root's own `.gitignore`*, any path matched by the parsed
negation `!keep.log` (in particular a file named `keep.log`) is not
ignored, whatever patterns precede; and on a concrete root-level tree
`keep.log` is retained in the emitted set while `other.log` is not.
For subdirectory `.gitignore` files the re-anchoring prefixes the
directory path, the `!` is no longer leading, and negation does not
apply (see the counterexample). -/
theorem c3_negation_retains :
    (∀ (pre : List String) (p : List String) (gp : GitPattern),
        parseGitPattern "!keep.log" = some gp → gitMatch gp p = true →
        matchVerdict (parseSpec (pre ++ ["*.log", "!keep.log"])) p = false) ∧
      filesToProcess cfgDefault "." logRootTree = ["./a.txt", "./keep.log"] := by
  constructor
  · intro pre p gp hparse hm
    have hsplit : parseSpec (pre ++ ["*.log", "!keep.log"]) =
        parseSpec pre ++ parseSpec ["*.log", "!keep.log"] :=
      List.filterMap_append _ _ _
    have htwo : parseSpec ["*.log", "!keep.log"] =
        [⟨false, [dstar, "*.log".data]⟩, ⟨true, [dstar, "keep.log".data]⟩] := by decide
    have hgp : gp = ⟨true, [dstar, "keep.log".data]⟩ := by
      have : parseGitPattern "!keep.log" = some ⟨true, [dstar, "keep.log".data]⟩ := by decide
      rw [this] at hparse
      exact (Option.some.inj hparse).symm
    rw [hsplit, htwo]
    subst hgp
    exact matchVerdict_two_last_neg rfl hm
  · decide

/-- C3 witness: the amended theorem applied with a concrete preceding
rule set and the concrete path `keep.log`. -/
theorem c3_negation_retains_witness :
    matchVerdict (parseSpec (["foo", "/bar"] ++ ["*.log", "!keep.log"]))
      ["keep.log"] = false :=
  c3_negation_retains.1 ["foo", "/bar"] ["keep.log"] ⟨true, [dstar, "keep.log".data]⟩
    (by decide) (by decide)

/-! ## Claim C4: decode-failure isolation -/

/-- Number of decodable files in an emission list. -/
def countDecodable (files : List (String × Option String)) : Nat :=
  (files.filter (fun pc => pc.2.isSome)).length

/-- The warnings among an output stream. -/
def warnOutputs (l : List Output) : List Output :=
  l.filter fun o => match o with | .warn _ => true | .line _ => false

/-- The one warning produced for an undecodable file. -/
def decodeWarning (path : String) : Output :=
  .warn ("Warning: Skipping file " ++ path ++ " due to UnicodeDecodeError")

theorem warnOutputs_append (l1 l2 : List Output) :
    warnOutputs (l1 ++ l2) = warnOutputs l1 ++ warnOutputs l2 :=
  List.filter_append _ _

theorem warnOutputs_print_path (fmt : OutFormat) (ln : Bool) (idx : Nat)
    (p s : String) : warnOutputs (print_path fmt ln idx p s).1 = [] := by
  cases fmt <;> rfl

theorem emitOne_idx (fmt : OutFormat) (ln : Bool) (idx : Nat) (p : String)
    (c : Option String) :
    (emitOne fmt ln idx p c).2 =
      idx + (if fmt = .xml ∧ c.isSome then 1 else 0) := by
  cases c with
  | none => simp [emitOne]
  | some s => cases fmt <;> simp [emitOne, print_path, print_as_xml]

theorem emitAll_idx (fmt : OutFormat) (ln : Bool) (idx : Nat)
    (files : List (String × Option String)) :
    (emitAll fmt ln idx files).2 =
      idx + (if fmt = .xml then countDecodable files else 0) := by
  induction files generalizing idx with
  | nil => simp [emitAll, countDecodable]
  | cons pc rest ih =>
    obtain ⟨p, c⟩ := pc
    simp only [emitAll]
    rw [ih, emitOne_idx]
    cases c with
    | none => simp [countDecodable]
    | some s =>
      by_cases hx : fmt = .xml
      · simp [hx, countDecodable, List.filter_cons]
        omega
      · simp [hx, countDecodable]

/-- C4: decode-failure isolation in the emit loop.  (i) An undecodable
file at the head of the list yields exactly its warning, leaves the
counter unchanged, and processing continues with the remaining files;
(ii) the warnings of a whole run are exactly the per-file decode
warnings of the undecodable files, in order — no other per-file
failure exists and the loop never aborts; (iii) the XML counter
advances exactly once per successfully emitted file (and only in XML
mode); (iv) concretely, for three files whose second is binary, the
emitted documents are indexed 1 then 2 — never 3 — around the single
warning. -/
theorem c4_decode_failure_isolation :
    (∀ (fmt : OutFormat) (ln : Bool) (idx : Nat) (path : String)
        (rest : List (String × Option String)),
        emitAll fmt ln idx ((path, none) :: rest) =
          (decodeWarning path :: (emitAll fmt ln idx rest).1,
            (emitAll fmt ln idx rest).2)) ∧
      (∀ (fmt : OutFormat) (ln : Bool) (idx : Nat)
          (files : List (String × Option String)),
          warnOutputs (emitAll fmt ln idx files).1 =
            files.filterMap (fun pc =>
              match pc.2 with
              | none => some (decodeWarning pc.1)
              | some _ => none)) ∧
      (∀ (fmt : OutFormat) (ln : Bool) (idx : Nat)
          (files : List (String × Option String)),
          (emitAll fmt ln idx files).2 =
            idx + (if fmt = .xml then countDecodable files else 0)) ∧
      emitAll .xml false 1 [("a.txt", some "A"), ("b.bin", none), ("c.txt", some "C")] =
        ([.line "<document index=\"1\">", .line "<source>a.txt</source>",
          .line "<document_content>", .line "A", .line "</document_content>",
          .line "</document>",
          decodeWarning "b.bin",
          .line "<document index=\"2\">", .line "<source>c.txt</source>",
          .line "<document_content>", .line "C", .line "</document_content>",
          .line "</document>"], 3) := by
  refine ⟨?_, ?_, emitAll_idx, by decide⟩
  · intro fmt ln idx path rest
    simp [emitAll, emitOne, decodeWarning]
  · intro fmt ln idx files
    induction files generalizing idx with
    | nil => rfl
    | cons pc rest ih =>
      obtain ⟨p, c⟩ := pc
      cases c with
      | none =>
        simp only [emitAll, emitOne, List.filterMap_cons]
        rw [warnOutputs_append]
        rw [ih]
        rfl
      | some s =>
        simp only [emitAll, emitOne, List.filterMap_cons]
        rw [warnOutputs_append, warnOutputs_print_path]
        rw [ih]
        rfl

/-! ## Claim C5: the extension filter is a raw suffix test -/

/-- Configuration with `-e py`. -/
def cfgPy : Config := ⟨["py"], false, false, false, []⟩

/-- Tree with `script.py`, `report.copy`, `notes.txt`. -/
def extTree : List FSEntry :=
  [.file "script.py" (some "s"), .file "report.copy" (some "r"),
   .file "notes.txt" (some "n")]

/-- C5: with a non-empty extension tuple, a file passes the filter
pipeline iff it passes the other filters and its *name ends with one of
the configured suffixes as a raw string-suffix test* (`strEndsWith`);
in particular `py` matches both `script.py` and `report.copy`, and on a
concrete tree both are emitted while `notes.txt` is not. -/
theorem c5_extension_suffix :
    (∀ (cfg : Config) (σ : List GitPattern) (d : List String) (n : String),
        cfg.extensions ≠ [] →
        (fileKept cfg σ d n = true ↔
          (fileKept { cfg with extensions := [] } σ d n = true ∧
            cfg.extensions.any (fun e => strEndsWith n e) = true))) ∧
      strEndsWith "script.py" "py" = true ∧
      strEndsWith "report.copy" "py" = true ∧
      filesToProcess cfgPy "." extTree = ["./report.copy", "./script.py"] := by
  refine ⟨?_, by decide, by decide, by decide⟩
  · intro cfg σ d n hne
    have h1 : cfg.extensions.isEmpty = false := by
      cases hext : cfg.extensions with
      | nil => exact absurd hext hne
      | cons a l => rfl
    simp only [fileKept, h1, List.isEmpty_nil, Bool.true_or, Bool.and_true,
      Bool.false_or, Bool.and_eq_true]

/-- C5 witness: the filter-level equivalence applied to `report.copy`
with the `-e py` configuration. -/
theorem c5_extension_suffix_witness :
    cfgPy.extensions ≠ [] ∧
      (fileKept cfgPy [] [] "report.copy" = true ↔
        (fileKept { cfgPy with extensions := [] } [] [] "report.copy" = true ∧
          cfgPy.extensions.any (fun e => strEndsWith "report.copy" e) = true)) :=
  ⟨by decide, c5_extension_suffix.1 cfgPy [] [] "report.copy" (by decide)⟩

/-! ## Claim C6: the render sequence counter -/

/-- Number of successfully emitted files for one target. -/
def emittedTargets (cfg : Config) (tp : String) : PathTarget → Nat
  | .file c => if c.isSome then 1 else 0
  | .dir es =>
    countDecodable ((sortSegsByFull tp (walkRoot cfg (dirSpec cfg es) es)).map
      (fun q => (fullPath tp q, (contentAt es q).join)))

/-- Number of successfully emitted files of a whole argument list
(nothing after the first nonexistent path is emitted). -/
def emittedArgs (cfg : Config) : List CliArg → Nat
  | [] => 0
  | (_, none) :: _ => 0
  | (p, some t) :: rest => emittedTargets cfg p t + emittedArgs cfg rest

theorem process_path_idx (cfg : Config) (fmt : OutFormat) (ln : Bool) (idx : Nat)
    (tp : String) (t : PathTarget) :
    (process_path cfg fmt ln idx tp t).2 =
      idx + (if fmt = .xml then emittedTargets cfg tp t else 0) := by
  cases t with
  | file c =>
    rw [show process_path cfg fmt ln idx tp (.file c) = emitOne fmt ln idx tp c from rfl,
      emitOne_idx]
    cases c with
    | none => simp [emittedTargets]
    | some s => by_cases hx : fmt = .xml <;> simp [hx, emittedTargets]
  | dir es =>
    exact emitAll_idx fmt ln idx _

theorem cliLoop_idx (cfg : Config) (fmt : OutFormat) (ln : Bool) :
    ∀ (args : List CliArg) (idx : Nat),
      (cliLoop cfg fmt ln idx args).2.1 =
        idx + (if fmt = .xml then emittedArgs cfg args else 0) := by
  intro args
  induction args with
  | nil => intro idx; simp [cliLoop, emittedArgs]
  | cons a rest ih =>
    intro idx
    obtain ⟨p, t⟩ := a
    cases t with
    | none => simp [cliLoop, emittedArgs]
    | some tt =>
      simp only [cliLoop, emittedArgs]
      rw [ih, process_path_idx]
      by_cases hx : fmt = .xml
      · simp only [hx, if_true, reduceIte]
        omega
      · simp [hx]

/-- Two files listed in non-alphabetical order. -/
def twoTree : List FSEntry := [.file "b.txt" (some "B"), .file "a.txt" (some "A")]

/-- C6 — counterexample to the claim as stated: in plain (default)
mode one file is successfully emitted, yet the counter ends the run
still at its initial value 1 — it is *not* incremented once per
successfully emitted file outside the XML renderer. -/
theorem c6_counterexample :
    emittedArgs cfgDefault [("t", some (.file (some "X")))] = 1 ∧
      (cliRun cfgDefault .plain false [("t", some (.file (some "X")))]).2.1 = 1 ∧
      (cliRun cfgDefault .plain false [("t", some (.file (some "X")))]).2.1 ≠
        1 + emittedArgs cfgDefault [("t", some (.file (some "X")))] :=
  ⟨by decide, by decide, by decide⟩

/-- C6 (amended): the render sequence counter starts every top-level
invocation at 1; in XML mode it is incremented exactly once per
successfully emitted file (final value `1 + emittedArgs`); in plain
and Markdown modes it is never modified; it is never read outside the
XML renderer (the other renderers' output is independent of it); and
for two emitted files in XML mode the output is wrapped in
`<documents>…</documents>` with inner blocks indexed 1 and 2 in
emission order. -/
theorem c6_render_counter :
    (∀ (cfg : Config) (ln : Bool) (args : List CliArg),
        (cliRun cfg .xml ln args).2.1 = 1 + emittedArgs cfg args) ∧
      (∀ (cfg : Config) (fmt : OutFormat) (ln : Bool) (args : List CliArg),
          fmt ≠ .xml → (cliRun cfg fmt ln args).2.1 = 1) ∧
      (∀ (fmt : OutFormat) (ln : Bool) (idx idx2 : Nat) (p s : String),
          fmt ≠ .xml →
          (print_path fmt ln idx p s).1 = (print_path fmt ln idx2 p s).1 ∧
            (print_path fmt ln idx p s).2 = idx) ∧
      cliRun cfgDefault .xml false [("t", some (.dir twoTree))] =
        ([.line "<documents>",
          .line "<document index=\"1\">", .line "<source>t/a.txt</source>",
          .line "<document_content>", .line "A", .line "</document_content>",
          .line "</document>",
          .line "<document index=\"2\">", .line "<source>t/b.txt</source>",
          .line "<document_content>", .line "B", .line "</document_content>",
          .line "</document>",
          .line "</documents>"], 3, none) := by
  refine ⟨?_, ?_, ?_, by decide⟩
  · intro cfg ln args
    simp only [cliRun]
    rw [cliLoop_idx]
    simp
  · intro cfg fmt ln args hfmt
    simp only [cliRun]
    rw [cliLoop_idx]
    simp [hfmt]
  · intro fmt ln idx idx2 p s hfmt
    cases fmt with
    | xml => exact absurd rfl hfmt
    | plain => exact ⟨rfl, rfl⟩
    | markdown => exact ⟨rfl, rfl⟩

/-- C6 witness: the non-XML clauses applied concretely. -/
theorem c6_render_counter_witness :
    (OutFormat.plain ≠ OutFormat.xml) ∧
      (cliRun cfgDefault .plain false [("t", some (.file (some "X")))]).2.1 = 1 ∧
      (print_path .markdown false 5 "a.py" "x").1 = (print_path .markdown false 9 "a.py" "x").1 :=
  ⟨by decide, c6_render_counter.2.1 cfgDefault .plain false _ (by decide),
    (c6_render_counter.2.2.1 .markdown false 5 9 "a.py" "x" (by decide)).1⟩

/-! ## Claim C7: single-file targets bypass all filters -/

/-- C7: a file target is processed identically under every filter
configuration — none of the four filters applies — and is emitted
unconditionally subject only to the decode check; concretely, a hidden
dotfile that fails the `-e py` extension filter is still emitted as a
file target, while the same file inside a directory target is filtered
out. -/
theorem c7_file_target_unfiltered :
    (∀ (cfg1 cfg2 : Config) (fmt : OutFormat) (ln : Bool) (idx : Nat)
        (tp : String) (c : Option String),
        process_path cfg1 fmt ln idx tp (.file c) =
          process_path cfg2 fmt ln idx tp (.file c)) ∧
      (∀ (cfg : Config) (fmt : OutFormat) (ln : Bool) (idx : Nat) (tp s : String),
          process_path cfg fmt ln idx tp (.file (some s)) = print_path fmt ln idx tp s) ∧
      (∀ (cfg : Config) (fmt : OutFormat) (ln : Bool) (idx : Nat) (tp : String),
          process_path cfg fmt ln idx tp (.file none) = ([decodeWarning tp], idx)) ∧
      process_path cfgPy .plain false 1 ".hidden.txt" (.file (some "x")) =
        ([.line ".hidden.txt", .line "---", .line "x", .line "", .line "---"], 1) ∧
      filesToProcess cfgPy "." [.file ".hidden.txt" (some "x")] = [] :=
  ⟨fun _ _ _ _ _ _ _ => rfl, fun _ _ _ _ _ _ => rfl, fun _ _ _ _ _ => rfl,
    by decide, by decide⟩

/-! ## Claim C8: a nonexistent path aborts the run -/

theorem cliLoop_cut (cfg : Config) (fmt : OutFormat) (ln : Bool) (name : String)
    (post : List CliArg) :
    ∀ (pre : List CliArg) (idx : Nat), (∀ a ∈ pre, a.2.isSome = true) →
      cliLoop cfg fmt ln idx (pre ++ (name, none) :: post) =
        ((cliLoop cfg fmt ln idx pre).1, (cliLoop cfg fmt ln idx pre).2.1,
          some ("Path does not exist: " ++ name)) := by
  intro pre
  induction pre with
  | nil =>
    intro idx h
    rfl
  | cons a pre ih =>
    intro idx h
    obtain ⟨p, t⟩ := a
    cases t with
    | none =>
      exact absurd (h (p, none) (List.mem_cons_self _ _)) (by simp)
    | some tt =>
      simp only [List.cons_append, cliLoop, List.append_eq]
      rw [ih _ (fun a ha => h a (List.mem_cons_of_mem _ ha))]

/-- C8: if an argument path does not exist, the run stops with the
usage error `Path does not exist: …` raised at that argument: the
output stream is exactly the XML opener (if any) plus the output of the
existing earlier paths — already-written output is not retracted, no
output is produced for the nonexistent path or anything after it (the
result does not mention `post`), and the closing `</documents>` is not
written. -/
theorem c8_nonexistent_aborts (cfg : Config) (fmt : OutFormat) (ln : Bool)
    (pre : List CliArg) (name : String) (post : List CliArg)
    (h : ∀ a ∈ pre, a.2.isSome = true) :
    cliRun cfg fmt ln (pre ++ (name, none) :: post) =
      ((if fmt = .xml then [Output.line "<documents>"] else []) ++
          (cliLoop cfg fmt ln 1 pre).1,
        (cliLoop cfg fmt ln 1 pre).2.1, some ("Path does not exist: " ++ name)) := by
  simp only [cliRun]
  rw [cliLoop_cut cfg fmt ln name post pre 1 h]
  simp

/-- C8 witness: one existing file before a missing path, with a further
path after it that is never processed. -/
theorem c8_nonexistent_aborts_witness :
    (∀ a ∈ [(("a" : String), some (PathTarget.file (some "X")))], a.2.isSome = true) ∧
      cliRun cfgDefault .plain false
        [("a", some (.file (some "X"))), ("missing", none), ("c", some (.file (some "Y")))] =
        ((if OutFormat.plain = OutFormat.xml then [Output.line "<documents>"] else []) ++
            (cliLoop cfgDefault .plain false 1 [("a", some (.file (some "X")))]).1,
          (cliLoop cfgDefault .plain false 1 [("a", some (.file (some "X")))]).2.1,
          some ("Path does not exist: " ++ "missing")) :=
  ⟨by decide,
    c8_nonexistent_aborts cfgDefault .plain false [("a", some (.file (some "X")))]
      "missing" [("c", some (.file (some "Y")))] (by decide)⟩

/-! ## Claims C9 and C10: the Markdown fence-extension loop -/

theorem sub_length_le {m c : List Char} (h : m <:+: c) : m.length ≤ c.length := by
  obtain ⟨s, t, rfl⟩ := h
  simp only [List.length_append]
  omega

theorem sub_of_dropLast_sub {m c : List Char} (h : m <:+: c) : m.dropLast <:+: c := by
  obtain ⟨s, t, rfl⟩ := h
  cases hm : m.reverse with
  | nil =>
    have : m = [] := by
      simpa using congrArg List.reverse hm
    exact ⟨s, m ++ t, by simp [this]⟩
  | cons a r =>
    have hm2 : m = r.reverse ++ [a] := by
      have := congrArg List.reverse hm
      simpa using this
    refine ⟨s, [a] ++ t, ?_⟩
    rw [hm2]
    simp

theorem extendFenceF_no_collision :
    ∀ (fuel : Nat) (c m : List Char), c.length + 1 ≤ fuel + m.length →
      ¬ (extendFenceF fuel c m <:+: c) := by
  intro fuel
  induction fuel with
  | zero =>
    intro c m hb h
    have := sub_length_le h
    simp only [extendFenceF] at this
    omega
  | succ fuel ih =>
    intro c m hb
    by_cases h : m <:+: c
    · rw [show extendFenceF (fuel + 1) c m = extendFenceF fuel c (m ++ [tick]) by
        simp [extendFenceF, decide_eq_true h]]
      refine ih c (m ++ [tick]) ?_
      simp only [List.length_append, List.length_cons, List.length_nil]
      omega
    · rw [show extendFenceF (fuel + 1) c m = m by
        simp [extendFenceF, decide_eq_false h]]
      exact h

theorem extendFenceF_stuck (fuel : Nat) (c m : List Char) (h : ¬ (m <:+: c)) :
    extendFenceF fuel c m = m := by
  cases fuel with
  | zero => rfl
  | succ fuel => simp [extendFenceF, decide_eq_false h]

theorem extendFenceF_dropLast_occurs :
    ∀ (fuel : Nat) (c m : List Char), (m <:+: c) →
      (extendFenceF fuel c m).dropLast <:+: c := by
  intro fuel
  induction fuel with
  | zero =>
    intro c m h
    exact sub_of_dropLast_sub h
  | succ fuel ih =>
    intro c m h
    rw [show extendFenceF (fuel + 1) c m = extendFenceF fuel c (m ++ [tick]) by
      simp [extendFenceF, decide_eq_true h]]
    by_cases h2 : (m ++ [tick]) <:+: c
    · exact ih c (m ++ [tick]) h2
    · rw [extendFenceF_stuck fuel c _ h2, List.dropLast_concat]
      exact h

theorem extendFenceF_shape :
    ∀ (fuel : Nat) (c m : List Char), ∃ k,
      extendFenceF fuel c m = m ++ List.replicate k tick := by
  intro fuel
  induction fuel with
  | zero =>
    intro c m
    exact ⟨0, by simp [extendFenceF]⟩
  | succ fuel ih =>
    intro c m
    by_cases h : m <:+: c
    · rw [show extendFenceF (fuel + 1) c m = extendFenceF fuel c (m ++ [tick]) by
        simp [extendFenceF, decide_eq_true h]]
      obtain ⟨k, hk⟩ := ih c (m ++ [tick])
      exact ⟨k + 1, by simp [hk, List.replicate_succ]⟩
    · exact ⟨0, by simp [extendFenceF_stuck _ _ _ h]⟩

theorem tick_string : ("```" : String).data = List.replicate 3 tick := by decide

theorem fenceFor_data (content : String) :
    (fenceFor content).data =
      extendFenceF (content.data.length + 1) content.data (List.replicate 3 tick) := rfl

/-- C9: the Markdown fence never collides with the content (the chosen
marker is not a substring); whenever the content contains a three-
backtick run, the chosen marker is exactly one backtick longer than
the longest run present (its `dropLast` still occurs, itself does
not); the marker is a run of backticks; contents without a three-
backtick run keep the base fence; and a concrete content containing
three backticks on a line is fenced with four backticks in the emitted
Markdown block. -/
theorem c9_markdown_fence :
    (∀ content : String,
        ¬ ((fenceFor content).data <:+: content.data) ∧
          (("```" : String).data <:+: content.data →
            (fenceFor content).data.dropLast <:+: content.data) ∧
          (¬ (("```" : String).data <:+: content.data) → fenceFor content = "```") ∧
          (∃ k, (fenceFor content).data = List.replicate k tick)) ∧
      fenceFor "x\n```\ny" = "````" ∧
      print_as_markdown false "f.txt" "x\n```\ny" =
        [.line "f.txt", .line "````", .line "x\n```\ny", .line "````"] := by
  refine ⟨?_, by decide, by decide⟩
  intro content
  refine ⟨?_, ?_, ?_, ?_⟩
  · rw [fenceFor_data]
    refine extendFenceF_no_collision _ _ _ ?_
    simp only [List.length_replicate]
    omega
  · intro h
    rw [tick_string] at h
    rw [fenceFor_data]
    exact extendFenceF_dropLast_occurs _ _ _ h
  · intro h
    rw [tick_string] at h
    have := extendFenceF_stuck (content.data.length + 1) content.data _ h
    simp only [fenceFor, this]
    decide
  · rw [fenceFor_data]
    obtain ⟨k, hk⟩ := extendFenceF_shape (content.data.length + 1) content.data
      (List.replicate 3 tick)
    exact ⟨3 + k, by rw [hk, ← List.replicate_add]⟩

/-- C9 witness: the one-longer-than-the-longest-run clause applied to a
concrete content with a three-backtick run. -/
theorem c9_markdown_fence_witness :
    ("```" : String).data <:+: ("x\n```\ny" : String).data ∧
      (fenceFor "x\n```\ny").data.dropLast <:+: ("x\n```\ny" : String).data :=
  ⟨by decide, (c9_markdown_fence.1 "x\n```\ny").2.1 (by decide)⟩

/-- C10: the fence-extension loop terminates for every finite content
(`fenceFor` is total by fuel `content.length + 1`, which the loop never
exhausts): a marker that does not occur in the content is always
reached, and the number of extension steps — the final marker length
minus the initial 3 — is at most the length of the content. -/
theorem c10_fence_termination :
    ∀ content : String,
      ¬ ((fenceFor content).data <:+: content.data) ∧
        (fenceFor content).data.length - 3 ≤ content.data.length := by
  intro content
  have hnc : ¬ ((fenceFor content).data <:+: content.data) := by
    rw [fenceFor_data]
    refine extendFenceF_no_collision _ _ _ ?_
    simp only [List.length_replicate]
    omega
  refine ⟨hnc, ?_⟩
  by_cases h : ("```" : String).data <:+: content.data
  · have hd : (fenceFor content).data.dropLast <:+: content.data := by
      rw [tick_string] at h
      rw [fenceFor_data]
      exact extendFenceF_dropLast_occurs _ _ _ h
    have := sub_length_le hd
    simp only [List.length_dropLast] at this
    omega
  · rw [tick_string] at h
    have := extendFenceF_stuck (content.data.length + 1) content.data _ h
    rw [fenceFor_data, this]
    simp

/-- C10 witness: the bound at a concrete content. -/
theorem c10_fence_termination_witness :
    ¬ ((fenceFor "a``b").data <:+: ("a``b" : String).data) ∧
      (fenceFor "a``b").data.length - 3 ≤ ("a``b" : String).data.length :=
  c10_fence_termination "a``b"

end FilesToPrompt
